import Mathlib

/-!
# Verification of the wasmbooth filter engine (`src/filter.rs`)

This file gives a shallow embedding of the image-filter engine in
`src/filter.rs` and proves the specification claims about it.

Embedding conventions:
* `u8` / `u32` / `usize` values are embedded as `ℕ`; the places where
  machine subtraction could underflow are additionally modelled by a
  `checked` variant of every filter (`filterChecked`) in which each
  subtraction, index access and `i32 → usize` cast is explicit and
  fallible (`Option`), mirroring Rust's panic-on-underflow /
  panic-on-out-of-bounds semantics.
* The Sobel kernels in the source are `f64` literals whose entries are
  all integers; the gradient sums are therefore exact integers well
  below `2^53`, so `f64` addition and multiplication on them is exact
  and they are embedded as `ℤ`.
* `f64::sqrt` is correctly rounded; for the integer radicands that occur
  here (at most `2 * (255 * 574)^2 < 2^36`), the distance from `√n` to
  the nearest integer exceeds the rounding error whenever `n` is not a
  perfect square, so `(sum_x*sum_x + sum_y*sum_y).sqrt() as u8` equals
  `min 255 (Nat.sqrt n)` (Rust float-to-int `as` casts saturate).
* The collaborators `Pixel`, `Image` and `apply_convolution` live in
  `pixel.rs` / `image.rs` / `convolution.rs`, which are not part of the
  sources under verification; they are modelled from the specification
  (see the individual doc comments).
-/

/-- Modelled from the spec: `Pixel` from the missing `pixel.rs` —
`{ red: u8, green: u8, blue: u8 }`, channels embedded as `ℕ`. -/
structure Pixel where
  red : ℕ
  green : ℕ
  blue : ℕ
deriving DecidableEq

/-- Modelled from the spec: the `Pixel::rgb` constructor. -/
def Pixel.rgb (r g b : ℕ) : Pixel := ⟨r, g, b⟩

/-- Modelled from the spec: `Pixel::grayscale` from the missing
`pixel.rs` — "mutates all three channels to a luma-equivalent gray
value (method unspecified)".  The repository's own grayscale test maps
`(100,150,200)` to `(150,150,150)`, matching the channel average, so
the average is used as the luma. -/
def Pixel.grayscale (p : Pixel) : Pixel :=
  let g := (p.red + p.green + p.blue) / 3
  ⟨g, g, g⟩

/-- Modelled from the spec: `Pixel::invert` from the missing `pixel.rs`
— "replaces each channel `c` with `255 - c`". -/
def Pixel.invert (p : Pixel) : Pixel :=
  ⟨255 - p.red, 255 - p.green, 255 - p.blue⟩

/-- Modelled from the spec: `Pixel::set_gray` from the missing
`pixel.rs` — "sets all channels to `v`". -/
def Pixel.set_gray (_p : Pixel) (v : ℕ) : Pixel := ⟨v, v, v⟩

/-- A pixel whose channels fit in `u8`, the invariant Rust's types give
for free. -/
def Pixel.Valid (p : Pixel) : Prop :=
  p.red ≤ 255 ∧ p.green ≤ 255 ∧ p.blue ≤ 255

instance (p : Pixel) : Decidable p.Valid := by unfold Pixel.Valid; infer_instance

/-- Modelled from the spec: the `Image` buffer from the missing
`image.rs` — `{ width, height, pixels }` with row-major layout
`index = row*width + col`. -/
@[ext]
structure Image where
  width : ℕ
  height : ℕ
  pixels : List Pixel
deriving DecidableEq

/-- Modelled from the spec: `Image::index_to_row_col`, the row-major
inverse `i ↦ (i / width, i % width)`. -/
def Image.index_to_row_col (img : Image) (i : ℕ) : ℕ × ℕ :=
  (i / img.width, i % img.width)

/-- Modelled from the spec: `Image::row_col_to_index`, row-major
`(row, col) ↦ row * width + col`. -/
def Image.row_col_to_index (img : Image) (row col : ℕ) : ℕ :=
  row * img.width + col

/-- Reading `image.pixels[i]`; the default is irrelevant because every
access the engine makes is proved in bounds (`filterChecked`). -/
def Image.getPixel (img : Image) (i : ℕ) : Pixel :=
  img.pixels.getD i ⟨0, 0, 0⟩

/-- A well-formed buffer: nonzero dimensions and
`pixels.len() == width*height`. -/
def Image.WellFormed (img : Image) : Prop :=
  0 < img.width ∧ 0 < img.height ∧ img.pixels.length = img.width * img.height

instance (img : Image) : Decidable img.WellFormed := by
  unfold Image.WellFormed; infer_instance

/-- All pixels of the buffer are in `u8` range (automatic in Rust). -/
def Image.ValidPixels (img : Image) : Prop :=
  ∀ p ∈ img.pixels, p.Valid

instance (img : Image) : Decidable img.ValidPixels := by
  unfold Image.ValidPixels; infer_instance

/-- The `ConvolutionMatrix` of the missing `convolution.rs`: a 3x3
matrix of `f64` weights, embedded as rationals. -/
def ConvolutionMatrix : Type := Fin 3 → Fin 3 → ℚ

/-- Modelled from the spec: narrowing a floating-point sum to the 8-bit
channel range, "truncating/clamping the result into the 8-bit channel
range" (Rust `as u8` on a float saturates at the ends and truncates
toward zero). -/
def clampToByte (q : ℚ) : ℕ :=
  if q < 0 then 0 else min 255 q.floor.toNat

/-- Modelled from the spec: `apply_convolution` from the missing
`convolution.rs` — `sum(neighborhood[i][j] * kernel[i][j])`, narrowed
to 8 bits. -/
def apply_convolution (n : Fin 3 → Fin 3 → ℕ) (m : ConvolutionMatrix) : ℕ :=
  clampToByte (∑ i : Fin 3, ∑ j : Fin 3, (n i j : ℚ) * m i j)

/-- Modelled from the spec: one channel of `Image::get_neighbour_colours`
— "the 3x3 neighborhood of each of the three channels" around an
interior index, as a fixed-size structure. -/
def Image.neighbourChannel (img : Image) (i : ℕ) (f : Pixel → ℕ)
    (dr dc : Fin 3) : ℕ :=
  let rc := img.index_to_row_col i
  f (img.getPixel (img.row_col_to_index (rc.1 - 1 + dr) (rc.2 - 1 + dc)))

/-- Modelled from the spec: `Image::get_neighbour_colours`, returning
the red, green and blue 3x3 neighborhoods of an interior index. -/
def Image.get_neighbour_colours (img : Image) (i : ℕ) :
    (Fin 3 → Fin 3 → ℕ) × (Fin 3 → Fin 3 → ℕ) × (Fin 3 → Fin 3 → ℕ) :=
  (img.neighbourChannel i Pixel.red,
   img.neighbourChannel i Pixel.green,
   img.neighbourChannel i Pixel.blue)

/-- `fn mirror_x`: one pass over `0..len`; a pixel whose column is left
of `mid = width/2` is copied (from the live buffer) onto the mirrored
column `width - 1 - col` in the same row. -/
def mirror_x (img : Image) : Image :=
  { img with pixels :=
      (List.range img.pixels.length).foldl (fun px i =>
        let mid := img.width / 2
        let rc := img.index_to_row_col i
        if rc.2 < mid then
          px.set (img.row_col_to_index rc.1 (img.width - 1 - rc.2))
            (px.getD i ⟨0, 0, 0⟩)
        else px) img.pixels }

/-- `fn mirror_y`: as `mirror_x` with rows in place of columns. -/
def mirror_y (img : Image) : Image :=
  { img with pixels :=
      (List.range img.pixels.length).foldl (fun px i =>
        let mid := img.height / 2
        let rc := img.index_to_row_col i
        if rc.1 < mid then
          px.set (img.row_col_to_index (img.height - 1 - rc.1) rc.2)
            (px.getD i ⟨0, 0, 0⟩)
        else px) img.pixels }

/-- `fn grayscale`: `pixels[i].grayscale()` for every index. -/
def grayscale (img : Image) : Image :=
  { img with pixels := img.pixels.map Pixel.grayscale }

/-- `fn invert`: `pixels[i].invert()` for every index. -/
def invert (img : Image) : Image :=
  { img with pixels := img.pixels.map Pixel.invert }

/-- `fn convolution`: snapshot the buffer, then rewrite every interior
pixel from the snapshot's per-channel 3x3 neighborhoods through
`apply_convolution`; border pixels are skipped. -/
def convolution (img : Image) (matrix : ConvolutionMatrix) : Image :=
  let original : Image := ⟨img.width, img.height, img.pixels⟩
  { img with pixels :=
      (List.range img.pixels.length).foldl (fun px i =>
        let rc := img.index_to_row_col i
        if 0 < rc.1 ∧ rc.1 < img.height - 1 ∧ 0 < rc.2 ∧ rc.2 < img.width - 1 then
          let nbh := original.get_neighbour_colours i
          px.set i (Pixel.rgb (apply_convolution nbh.1 matrix)
            (apply_convolution nbh.2.1 matrix) (apply_convolution nbh.2.2 matrix))
        else px) img.pixels }

/-- Binary-search step for the integer square root; structurally
recursive on the fuel so that it reduces inside the kernel. -/
def sqrtGo (n : ℕ) : ℕ → ℕ → ℕ → ℕ
  | 0, lo, _ => lo
  | fuel + 1, lo, hi =>
    let mid := (lo + hi) / 2
    if mid = lo then lo
    else if mid * mid ≤ n then sqrtGo n fuel mid hi
    else sqrtGo n fuel lo mid

/-- Kernel-computable `⌊√n⌋` (proved equal to `Nat.sqrt` below). -/
def intSqrt (n : ℕ) : ℕ := sqrtGo n (n + 2) 0 (n + 1)

/-- `(sum_x*sum_x + sum_y*sum_y).sqrt() as u8`.  The sums are exact
integers (see the header), `f64::sqrt` is correctly rounded so its
floor is the integer square root, and the float-to-`u8` cast saturates
at 255. -/
def gradMag (sx sy : ℤ) : ℕ :=
  min 255 (intSqrt (sx * sx + sy * sy).toNat)

/-- The horizontal gradient sum of `fn edge_detection`, unrolled over
the 8 flat-index neighbours exactly as in the source. -/
def edSumX (original : Image) (i : ℕ) : ℤ :=
  ((original.getPixel (i - original.width + 1)).red : ℤ)
    - ((original.getPixel (i - original.width - 1)).red : ℤ)
    - 2 * ((original.getPixel (i - 1)).red : ℤ)
    + 2 * ((original.getPixel (i + 1)).red : ℤ)
    - ((original.getPixel (i + original.width - 1)).red : ℤ)
    + ((original.getPixel (i + original.width + 1)).red : ℤ)

/-- The vertical gradient sum of `fn edge_detection`. -/
def edSumY (original : Image) (i : ℕ) : ℤ :=
  -1 * ((original.getPixel (i - original.width - 1)).red : ℤ)
    - 2 * ((original.getPixel (i - original.width)).red : ℤ)
    - ((original.getPixel (i - original.width + 1)).red : ℤ)
    + ((original.getPixel (i + original.width - 1)).red : ℤ)
    + 2 * ((original.getPixel (i + original.width)).red : ℤ)
    + ((original.getPixel (i + original.width + 1)).red : ℤ)

/-- `fn edge_detection`: snapshot the buffer, grayscale every pixel in
place, then for every index not on the 1-pixel border set the pixel's
gray value to the gradient magnitude of the fixed 3x3 Sobel pair, read
from the red channel of the (pre-grayscale) snapshot. -/
def edge_detection (img : Image) : Image :=
  let original : Image := ⟨img.width, img.height, img.pixels⟩
  let grayed := img.pixels.map Pixel.grayscale
  { img with pixels :=
      (List.range img.pixels.length).foldl (fun px i =>
        let rc := original.index_to_row_col i
        if rc.1 = 0 ∨ rc.1 = original.height - 1 ∨ rc.2 = 0 ∨ rc.2 = original.width - 1 then
          px
        else
          px.set i ((px.getD i ⟨0, 0, 0⟩).set_gray
            (gradMag (edSumX original i) (edSumY original i)))) grayed }

/-- `SOBEL_1_X` of `fn edge` (integer-valued `f64` literals). -/
def SOBEL_1_X : List (List ℤ) :=
  [[-1, 0, 1], [-2, 0, 2], [-1, 0, 1]]

/-- `SOBEL_1_Y` of `fn edge`. -/
def SOBEL_1_Y : List (List ℤ) :=
  [[-1, -2, -1], [0, 0, 0], [1, 2, 1]]

/-- `SOBEL_2_X` of `fn edge`. -/
def SOBEL_2_X : List (List ℤ) :=
  [[-1, -2, 0, 2, 1], [-4, -10, 0, 10, 4], [-7, -17, 0, 17, 7],
   [-4, -10, 0, 10, 4], [-1, -2, 0, 2, 1]]

/-- `SOBEL_2_Y` of `fn edge`. -/
def SOBEL_2_Y : List (List ℤ) :=
  [[-1, -4, -7, -4, -1], [-2, -10, -17, -10, -2], [0, 0, 0, 0, 0],
   [2, 10, 17, 10, 2], [1, 4, 7, 4, 1]]

/-- `SOBEL_3_X` of `fn edge`. -/
def SOBEL_3_X : List (List ℤ) :=
  [[-1, -3, -3, 0, 3, 3, 1], [-4, -11, -13, 0, 13, 11, 4],
   [-9, -26, -30, 0, 30, 26, 9], [-13, -34, -40, 0, 40, 34, 13],
   [-9, -26, -30, 0, 30, 26, 9], [-4, -11, -13, 0, 13, 11, 4],
   [-1, -3, -3, 0, 3, 3, 1]]

/-- `SOBEL_3_Y` of `fn edge`. -/
def SOBEL_3_Y : List (List ℤ) :=
  [[-1, -4, -9, -13, -9, -4, -1], [-3, -11, -26, -34, -26, -11, -3],
   [-3, -13, -30, -40, -30, -13, -3], [0, 0, 0, 0, 0, 0, 0],
   [3, 13, 30, 40, 30, 13, 3], [3, 11, 26, 34, 26, 11, 3],
   [1, 4, 9, 13, 9, 4, 1]]

/-- The inner double loop of `fn edge`: accumulate
`matrix[(j+margin)][(k+margin)] * red(original[(row+j, col+k)])` for
`j, k` in `[-margin, margin]` into `(sum_x, sum_y)`; the loop variables
are shifted by `margin` so `jj = j + margin` runs over
`0..2*margin+1`. -/
def sobelSums (mx my : List (List ℤ)) (original : Image)
    (row col margin : ℕ) : ℤ × ℤ :=
  (List.range (2 * margin + 1)).foldl (fun s (jj : ℕ) =>
    (List.range (2 * margin + 1)).foldl (fun s (kk : ℕ) =>
      let calc_index := original.row_col_to_index
        (((row : ℤ) + ((jj : ℤ) - (margin : ℤ))).toNat)
        (((col : ℤ) + ((kk : ℤ) - (margin : ℤ))).toNat)
      let v := ((original.getPixel calc_index).red : ℤ)
      (s.1 + ((mx.getD jj []).getD kk 0) * v,
       s.2 + ((my.getD jj []).getD kk 0) * v)) s) (0, 0)

/-- The body of `fn edge` after the kernel pair has been selected:
snapshot, grayscale in place, then rewrite every pixel at least
`margin = matrix_x.len()/2` away from every edge with the gradient
magnitude of the kernel pair, read from the snapshot's red channel. -/
def edgeWith (matrix_x matrix_y : List (List ℤ)) (img : Image) : Image :=
  let original : Image := ⟨img.width, img.height, img.pixels⟩
  let grayed := img.pixels.map Pixel.grayscale
  let margin := matrix_x.length / 2
  { img with pixels :=
      (List.range img.pixels.length).foldl (fun px i =>
        let rc := original.index_to_row_col i
        if rc.1 < margin ∨ rc.1 > original.height - (margin + 1) ∨
            rc.2 < margin ∨ rc.2 > original.width - (margin + 1) then
          px
        else
          let s := sobelSums matrix_x matrix_y original rc.1 rc.2 margin
          px.set i ((px.getD i ⟨0, 0, 0⟩).set_gray (gradMag s.1 s.2))) grayed }

/-- `fn edge`: select the kernel pair by `num` (1 → 3x3, 2 → 5x5,
3 → 7x7); any other code returns before touching the buffer. -/
def edge (img : Image) (num : ℕ) : Image :=
  if num = 1 then edgeWith SOBEL_1_X SOBEL_1_Y img
  else if num = 2 then edgeWith SOBEL_2_X SOBEL_2_Y img
  else if num = 3 then edgeWith SOBEL_3_X SOBEL_3_Y img
  else img

/-- `enum FilterType`. -/
inductive FilterType where
  | MirrorX : FilterType
  | MirrorY : FilterType
  | Grayscale : FilterType
  | Invert : FilterType
  | Convolution : ConvolutionMatrix → FilterType
  | EdgeDetection : FilterType
  | SobelFilter : ℕ → FilterType

/-- `Image::filter`: dispatch on the selector. -/
def Image.filter (img : Image) (f : FilterType) : Image :=
  match f with
  | FilterType.MirrorX => mirror_x img
  | FilterType.MirrorY => mirror_y img
  | FilterType.Grayscale => grayscale img
  | FilterType.Invert => invert img
  | FilterType.Convolution matrix => convolution img matrix
  | FilterType.EdgeDetection => edge_detection img
  | FilterType.SobelFilter num => edge img num

/-!
## Checked layer

The definitions below repeat every filter with each machine-level
failure point explicit: `usize`/`u32`/`u8` subtraction underflow,
out-of-bounds indexing, negative `i32 → usize` casts and `i32`
overflow all return `none`, exactly where Rust would panic.  The
totality claim is that on well-formed buffers the checked run succeeds
and returns the plain result.
-/

/-- Checked unsigned subtraction (`usize`/`u32`/`u8` `-`). -/
def csub (a b : ℕ) : Option ℕ :=
  if b ≤ a then some (a - b) else none

/-- Checked indexed read `pixels[i]`. -/
def cget (l : List Pixel) (i : ℕ) : Option Pixel := l.get? i

/-- Checked indexed write `pixels[i] = p`. -/
def cset (l : List Pixel) (i : ℕ) (p : Pixel) : Option (List Pixel) :=
  if i < l.length then some (l.set i p) else none

/-- Checked `as usize` cast of an `i32` index offset. -/
def ctoNat (z : ℤ) : Option ℕ :=
  if 0 ≤ z then some z.toNat else none

/-- Checked `i32` arithmetic result. -/
def cI32 (z : ℤ) : Option ℤ :=
  if -(2 ^ 31) ≤ z ∧ z < 2 ^ 31 then some z else none

/-- Checked `Pixel::invert`: `255 - c` on `u8` cannot underflow when
the channel is in `u8` range. -/
def Pixel.invertChecked (p : Pixel) : Option Pixel := do
  let r ← csub 255 p.red
  let g ← csub 255 p.green
  let b ← csub 255 p.blue
  pure ⟨r, g, b⟩

/-- Checked `fn mirror_x`. -/
def mirror_xChecked (img : Image) : Option Image := do
  let px ← (List.range img.pixels.length).foldlM (fun px i => do
    let mid := img.width / 2
    let rc := img.index_to_row_col i
    if rc.2 < mid then do
      let w1 ← csub img.width 1
      let col2 ← csub w1 rc.2
      let p ← cget px i
      cset px (img.row_col_to_index rc.1 col2) p
    else pure px) img.pixels
  pure { img with pixels := px }

/-- Checked `fn mirror_y`. -/
def mirror_yChecked (img : Image) : Option Image := do
  let px ← (List.range img.pixels.length).foldlM (fun px i => do
    let mid := img.height / 2
    let rc := img.index_to_row_col i
    if rc.1 < mid then do
      let h1 ← csub img.height 1
      let row2 ← csub h1 rc.1
      let p ← cget px i
      cset px (img.row_col_to_index row2 rc.2) p
    else pure px) img.pixels
  pure { img with pixels := px }

/-- Checked `fn grayscale` (the modelled per-pixel luma is total). -/
def grayscaleChecked (img : Image) : Option Image :=
  pure { img with pixels := img.pixels.map Pixel.grayscale }

/-- Checked `fn invert`. -/
def invertChecked (img : Image) : Option Image := do
  let px ← img.pixels.mapM Pixel.invertChecked
  pure { img with pixels := px }

/-- Checked `Image::get_neighbour_colours`: the `row-1`/`col-1` offsets
and the bounds of all nine reads are verified. -/
def get_neighbour_colours_checked (img : Image) (i : ℕ) :
    Option ((Fin 3 → Fin 3 → ℕ) × (Fin 3 → Fin 3 → ℕ) × (Fin 3 → Fin 3 → ℕ)) := do
  let rc := img.index_to_row_col i
  let r1 ← csub rc.1 1
  let c1 ← csub rc.2 1
  if (∀ dr : Fin 3, ∀ dc : Fin 3,
      img.row_col_to_index (r1 + dr) (c1 + dc) < img.pixels.length) then
    pure (img.get_neighbour_colours i)
  else none

/-- Checked `fn convolution`; the `&&` guard short-circuits, so
`height - 1` and `width - 1` are only evaluated when reached. -/
def convolutionChecked (img : Image) (matrix : ConvolutionMatrix) : Option Image := do
  let original : Image := ⟨img.width, img.height, img.pixels⟩
  let px ← (List.range img.pixels.length).foldlM (fun px i => do
    let rc := img.index_to_row_col i
    if 0 < rc.1 then do
      let h1 ← csub img.height 1
      if rc.1 < h1 then
        if 0 < rc.2 then do
          let w1 ← csub img.width 1
          if rc.2 < w1 then do
            let nbh ← get_neighbour_colours_checked original i
            cset px i (Pixel.rgb (apply_convolution nbh.1 matrix)
              (apply_convolution nbh.2.1 matrix) (apply_convolution nbh.2.2 matrix))
          else pure px
        else pure px
      else pure px
    else pure px) img.pixels
  pure { img with pixels := px }

/-- An `i32` value in range. -/
def I32 (z : ℤ) : Prop := -(2 ^ 31) ≤ z ∧ z < 2 ^ 31

instance (z : ℤ) : Decidable (I32 z) := by unfold I32; infer_instance

/-- Checked gradient sums of `fn edge_detection`: the guard lists, in
source order, every `usize` subtraction (no underflow), every read
(index in bounds) and every intermediate `i32` value (in range) of the
two unrolled sums; when they all hold the result is the pair of plain
sums. -/
def edSumsChecked (original : Image) (i : ℕ) : Option (ℤ × ℤ) :=
  let w := original.width
  let len := original.pixels.length
  let r : ℕ → ℤ := fun j => ((original.getPixel j).red : ℤ)
  if w ≤ i ∧ i - w + 1 < len ∧
      1 ≤ i - w ∧ i - w - 1 < len ∧
      1 ≤ i ∧ i - 1 < len ∧ i + 1 < len ∧
      1 ≤ i + w ∧ i + w - 1 < len ∧ i + w + 1 < len ∧
      i - w < len ∧ i + w < len ∧
      I32 (r (i - w + 1)) ∧
      I32 (r (i - w + 1) - r (i - w - 1)) ∧
      I32 (r (i - w + 1) - r (i - w - 1) - 2 * r (i - 1)) ∧
      I32 (r (i - w + 1) - r (i - w - 1) - 2 * r (i - 1) + 2 * r (i + 1)) ∧
      I32 (r (i - w + 1) - r (i - w - 1) - 2 * r (i - 1) + 2 * r (i + 1) - r (i + w - 1)) ∧
      I32 (edSumX original i) ∧
      I32 (-1 * r (i - w - 1)) ∧
      I32 (-1 * r (i - w - 1) - 2 * r (i - w)) ∧
      I32 (-1 * r (i - w - 1) - 2 * r (i - w) - r (i - w + 1)) ∧
      I32 (-1 * r (i - w - 1) - 2 * r (i - w) - r (i - w + 1) + r (i + w - 1)) ∧
      I32 (-1 * r (i - w - 1) - 2 * r (i - w) - r (i - w + 1) + r (i + w - 1) + 2 * r (i + w)) ∧
      I32 (edSumY original i) ∧
      I32 (edSumX original i * edSumX original i) ∧
      I32 (edSumY original i * edSumY original i) ∧
      I32 (edSumX original i * edSumX original i + edSumY original i * edSumY original i) then
    some (edSumX original i, edSumY original i)
  else none

/-- Checked `fn edge_detection`. -/
def edge_detectionChecked (img : Image) : Option Image := do
  let original : Image := ⟨img.width, img.height, img.pixels⟩
  let grayed := img.pixels.map Pixel.grayscale
  let px ← (List.range img.pixels.length).foldlM (fun px i => do
    let rc := original.index_to_row_col i
    if rc.1 = 0 then pure px
    else do
      let h1 ← csub original.height 1
      if rc.1 = h1 then pure px
      else if rc.2 = 0 then pure px
      else do
        let w1 ← csub original.width 1
        if rc.2 = w1 then pure px
        else do
          let s ← edSumsChecked original i
          let p ← cget px i
          cset px i (p.set_gray (gradMag s.1 s.2))) grayed
  pure { img with pixels := px }

/-- Checked inner double loop of `fn edge`: the `i32 → usize` casts of
the neighbour coordinates, the kernel-vector indexing and the pixel
reads are all verified (the `f64` accumulation itself cannot fail). -/
def sobelSumsChecked (mx my : List (List ℤ)) (original : Image)
    (row col margin : ℕ) : Option (ℤ × ℤ) :=
  (List.range (2 * margin + 1)).foldlM (fun s (jj : ℕ) =>
    (List.range (2 * margin + 1)).foldlM (fun s (kk : ℕ) => do
      let row2 ← ctoNat ((row : ℤ) + ((jj : ℤ) - (margin : ℤ)))
      let col2 ← ctoNat ((col : ℤ) + ((kk : ℤ) - (margin : ℤ)))
      let p ← cget original.pixels (original.row_col_to_index row2 col2)
      let wx ← (mx.get? jj).bind (fun r => r.get? kk)
      let wy ← (my.get? jj).bind (fun r => r.get? kk)
      pure (s.1 + wx * ((p.red : ℤ)), s.2 + wy * ((p.red : ℤ)))) s) ((0 : ℤ), (0 : ℤ))

/-- Checked body of `fn edge` after kernel selection; the `||` guard
short-circuits, so `height - (margin+1)` and `width - (margin+1)` are
only evaluated when reached. -/
def edgeWithChecked (matrix_x matrix_y : List (List ℤ)) (img : Image) : Option Image := do
  let original : Image := ⟨img.width, img.height, img.pixels⟩
  let grayed := img.pixels.map Pixel.grayscale
  let margin := matrix_x.length / 2
  let px ← (List.range img.pixels.length).foldlM (fun px i => do
    let rc := original.index_to_row_col i
    if rc.1 < margin then pure px
    else do
      let hb ← csub original.height (margin + 1)
      if rc.1 > hb then pure px
      else if rc.2 < margin then pure px
      else do
        let wb ← csub original.width (margin + 1)
        if rc.2 > wb then pure px
        else do
          let s ← sobelSumsChecked matrix_x matrix_y original rc.1 rc.2 margin
          let p ← cget px i
          cset px i (p.set_gray (gradMag s.1 s.2))) grayed
  pure { img with pixels := px }

/-- Checked `fn edge`. -/
def edgeChecked (img : Image) (num : ℕ) : Option Image :=
  if num = 1 then edgeWithChecked SOBEL_1_X SOBEL_1_Y img
  else if num = 2 then edgeWithChecked SOBEL_2_X SOBEL_2_Y img
  else if num = 3 then edgeWithChecked SOBEL_3_X SOBEL_3_Y img
  else pure img

/-- Checked `Image::filter`. -/
def filterChecked (img : Image) (f : FilterType) : Option Image :=
  match f with
  | FilterType.MirrorX => mirror_xChecked img
  | FilterType.MirrorY => mirror_yChecked img
  | FilterType.Grayscale => grayscaleChecked img
  | FilterType.Invert => invertChecked img
  | FilterType.Convolution matrix => convolutionChecked img matrix
  | FilterType.EdgeDetection => edge_detectionChecked img
  | FilterType.SobelFilter num => edgeChecked img num

/-!
## Generic lemmas about the pixel-buffer folds
-/

/-- A fold whose step preserves the buffer length preserves it overall. -/
theorem foldl_length_pres (f : List Pixel → ℕ → List Pixel)
    (hf : ∀ px i, (f px i).length = px.length) :
    ∀ (l : List ℕ) (P : List Pixel), (l.foldl f P).length = P.length := by
  intro l
  induction l with
  | nil => intro P; rfl
  | cons x xs ih => intro P; rw [List.foldl_cons, ih (f P x), hf]

/-- Pointwise description of a pass over `0..n` whose step either
leaves the buffer alone or overwrites exactly index `i` with a value
`v i` that does not depend on the evolving buffer. -/
theorem foldl_writeAt_getElem? (cond : ℕ → Prop) [DecidablePred cond] (v : ℕ → Pixel)
    (f : List Pixel → ℕ → List Pixel)
    (hf : ∀ px i, f px i = if cond i then px.set i (v i) else px) :
    ∀ (n : ℕ) (P : List Pixel) (j : ℕ),
      ((List.range n).foldl f P)[j]? =
        if j < n ∧ cond j ∧ j < P.length then some (v j) else P[j]? := by
  have hflen : ∀ px i, (f px i).length = px.length := by
    intro px i; rw [hf]; split <;> simp
  intro n
  induction n with
  | zero => intro P j; rw [if_neg (by omega)]; rfl
  | succ n ih =>
    intro P j
    rw [List.range_succ, List.foldl_append, List.foldl_cons, List.foldl_nil, hf]
    have hlen : ((List.range n).foldl f P).length = P.length :=
      foldl_length_pres f hflen _ P
    by_cases hc : cond n
    · rw [if_pos hc]
      by_cases hj : j = n
      · subst hj
        by_cases hjP : j < P.length
        · rw [List.getElem?_set_self (by rw [hlen]; exact hjP),
            if_pos ⟨by omega, hc, hjP⟩]
        · rw [List.set_eq_of_length_le (by omega), ih,
            if_neg (by rintro ⟨a, b, c⟩; omega), if_neg (by rintro ⟨a, b, c⟩; omega)]
      · rw [List.getElem?_set_ne (by omega), ih]
        by_cases hcj : j < n ∧ cond j ∧ j < P.length
        · rw [if_pos hcj, if_pos ⟨by omega, hcj.2.1, hcj.2.2⟩]
        · rw [if_neg hcj, if_neg (by rintro ⟨a, b, c⟩; exact hcj ⟨by omega, b, c⟩)]
    · rw [if_neg hc, ih]
      by_cases hcj : j < n ∧ cond j ∧ j < P.length
      · rw [if_pos hcj, if_pos ⟨by omega, hcj.2.1, hcj.2.2⟩]
      · rw [if_neg hcj, if_neg]
        rintro ⟨a, b, c⟩
        apply hcj
        refine ⟨?_, b, c⟩
        rcases Nat.lt_succ_iff_lt_or_eq.mp a with h | h
        · exact h
        · exact absurd (h ▸ b) hc

/-- Row recovery: `(r*w + c) / w = r` when `c < w`. -/
theorem index_div (w r c : ℕ) (hc : c < w) : (r * w + c) / w = r := by
  rw [Nat.mul_comm r w, Nat.mul_add_div (by omega)]
  simp [Nat.div_eq_of_lt hc]

/-- Column recovery: `(r*w + c) % w = c` when `c < w`. -/
theorem index_mod (w r c : ℕ) (hc : c < w) : (r * w + c) % w = c := by
  rw [Nat.mul_comm r w, Nat.mul_add_mod, Nat.mod_eq_of_lt hc]

/-- An index below `w*h` sits in a row below `h`. -/
theorem row_lt_of_index_lt {w h i : ℕ} (hw : 0 < w) (hi : i < w * h) : i / w < h :=
  (Nat.div_lt_iff_lt_mul hw).mpr (by rw [Nat.mul_comm]; exact hi)

/-- `row*w + col < w*h` for `row < h`, `col < w`. -/
theorem index_lt_of_row_col {w h r c : ℕ} (hr : r < h) (hc : c < w) :
    r * w + c < w * h := by
  calc r * w + c < r * w + w := by omega
  _ = (r + 1) * w := by ring
  _ ≤ h * w := Nat.mul_le_mul_right w (by omega)
  _ = w * h := Nat.mul_comm h w

/-!
## Claims
-/

/-- **C2.** For every well-formed image and every size code `num` not
in `{1, 2, 3}`, `filter(image, SobelFilter(num))` leaves the buffer
completely unchanged — the parameter is validated before any side
effect, so not even the grayscale conversion happens. -/
theorem C2_sobel_unknown_code_noop (img : Image) (num : ℕ)
    (hwf : img.WellFormed) (h1 : num ≠ 1) (h2 : num ≠ 2) (h3 : num ≠ 3) :
    img.filter (FilterType.SobelFilter num) = img := by
  show edge img num = img
  rw [edge, if_neg h1, if_neg h2, if_neg h3]

/-- Witness for C2 at a concrete buffer and size code 4. -/
theorem C2_witness :
    Image.filter ⟨1, 1, [⟨5, 6, 7⟩]⟩ (FilterType.SobelFilter 4) = ⟨1, 1, [⟨5, 6, 7⟩]⟩ :=
  C2_sobel_unknown_code_noop ⟨1, 1, [⟨5, 6, 7⟩]⟩ 4 (by decide) (by decide) (by decide)
    (by decide)

/-- Pointwise description of `fn convolution`: interior indices get the
evaluator result on the pre-call neighborhoods, everything else is
untouched. -/
theorem convolution_pixels_getElem? (img : Image) (m : ConvolutionMatrix) (j : ℕ) :
    (convolution img m).pixels[j]? =
      if j < img.pixels.length ∧ (0 < j / img.width ∧ j / img.width < img.height - 1 ∧
          0 < j % img.width ∧ j % img.width < img.width - 1) then
        some (Pixel.rgb
          (apply_convolution (img.neighbourChannel j Pixel.red) m)
          (apply_convolution (img.neighbourChannel j Pixel.green) m)
          (apply_convolution (img.neighbourChannel j Pixel.blue) m))
      else img.pixels[j]? := by
  show ((List.range img.pixels.length).foldl (fun px i =>
      if 0 < i / img.width ∧ i / img.width < img.height - 1 ∧
          0 < i % img.width ∧ i % img.width < img.width - 1 then
        px.set i (Pixel.rgb
          (apply_convolution (img.neighbourChannel i Pixel.red) m)
          (apply_convolution (img.neighbourChannel i Pixel.green) m)
          (apply_convolution (img.neighbourChannel i Pixel.blue) m))
      else px) img.pixels)[j]? = _
  rw [foldl_writeAt_getElem?
    (fun i => 0 < i / img.width ∧ i / img.width < img.height - 1 ∧
      0 < i % img.width ∧ i % img.width < img.width - 1)
    (fun i => Pixel.rgb
      (apply_convolution (img.neighbourChannel i Pixel.red) m)
      (apply_convolution (img.neighbourChannel i Pixel.green) m)
      (apply_convolution (img.neighbourChannel i Pixel.blue) m))
    _ (fun px i => rfl)]
  exact if_congr (by tauto) rfl rfl

/-- **C10.** For every well-formed image with `width ≤ 2` or
`height ≤ 2` and any 3x3 kernel, `filter(image, Convolution(kernel))`
leaves the buffer entirely unchanged: the interior condition is
unsatisfiable, so no pixel is written. -/
theorem C10_convolution_small_image_noop (m : ConvolutionMatrix) (img : Image)
    (hwf : img.WellFormed) (hsmall : img.width ≤ 2 ∨ img.height ≤ 2) :
    img.filter (FilterType.Convolution m) = img := by
  show convolution img m = img
  have hpx : (convolution img m).pixels = img.pixels := by
    apply List.ext_getElem?
    intro j
    rw [convolution_pixels_getElem?]
    apply if_neg
    rintro ⟨-, hint⟩
    revert hint
    generalize j / img.width = r
    generalize j % img.width = c
    omega
  exact Image.ext rfl rfl hpx

/-- Witness for C10 at a concrete 2x2 buffer and the all-ones kernel. -/
theorem C10_witness :
    Image.filter ⟨2, 2, [⟨1, 2, 3⟩, ⟨4, 5, 6⟩, ⟨7, 8, 9⟩, ⟨10, 11, 12⟩]⟩
        (FilterType.Convolution (fun _ _ => 1)) =
      ⟨2, 2, [⟨1, 2, 3⟩, ⟨4, 5, 6⟩, ⟨7, 8, 9⟩, ⟨10, 11, 12⟩]⟩ :=
  C10_convolution_small_image_noop (fun _ _ => 1)
    ⟨2, 2, [⟨1, 2, 3⟩, ⟨4, 5, 6⟩, ⟨7, 8, 9⟩, ⟨10, 11, 12⟩]⟩
    (by decide) (Or.inl (by decide))

/-- Pointwise description of the `fn mirror_x`-shaped pass after `n`
steps: an index whose column is a mirror target (`w - 1 - col < w/2`)
whose source step has run holds the *original* pixel of its source
index, everything else is untouched.  In particular every value a step
reads is still original, because writes only land on columns at or
beyond `w - w/2 ≥ w/2` while reads happen at columns below `w/2`. -/
theorem mirror_fold_getElem? (w h : ℕ) (hw : 0 < w)
    (f : List Pixel → ℕ → List Pixel)
    (hf : ∀ px i, f px i =
      if i % w < w / 2 then
        px.set (i / w * w + (w - 1 - i % w)) (px.getD i ⟨0, 0, 0⟩)
      else px) :
    ∀ (n : ℕ) (P : List Pixel), P.length = w * h → n ≤ w * h →
      ∀ (j : ℕ), j < w * h →
      ((List.range n).foldl f P)[j]? =
        if w - 1 - j % w < w / 2 ∧ j / w * w + (w - 1 - j % w) < n then
          P[j / w * w + (w - 1 - j % w)]?
        else P[j]? := by
  have hflen : ∀ px i, (f px i).length = px.length := by
    intro px i; rw [hf]; split <;> simp
  intro n
  induction n with
  | zero =>
    intro P hP hn j hj
    rw [if_neg (by omega)]; rfl
  | succ n ih =>
    intro P hP hn j hj
    rw [List.range_succ, List.foldl_append, List.foldl_cons, List.foldl_nil, hf]
    have hlen : ((List.range n).foldl f P).length = P.length :=
      foldl_length_pres f hflen _ P
    have hcj : j % w < w := Nat.mod_lt _ hw
    have hrj : j / w < h := row_lt_of_index_lt hw hj
    have hsrcj : j / w * w + (w - 1 - j % w) < w * h :=
      index_lt_of_row_col hrj (by omega)
    have hn' : n ≤ w * h := by omega
    have hnw : n % w < w := Nat.mod_lt _ hw
    have hrn : n / w < h := row_lt_of_index_lt hw (by omega)
    have hjeq : j / w * w + j % w = j := by
      rw [Nat.mul_comm]; exact Nat.div_add_mod j w
    have hneq : n / w * w + n % w = n := by
      rw [Nat.mul_comm]; exact Nat.div_add_mod n w
    by_cases hc : n % w < w / 2
    · rw [if_pos hc]
      have hval : ((List.range n).foldl f P).getD n ⟨0, 0, 0⟩ = P.getD n ⟨0, 0, 0⟩ := by
        rw [List.getD_eq_getElem?_getD, List.getD_eq_getElem?_getD,
          ih P hP hn' n (by omega), if_neg]
        rintro ⟨a, -⟩
        omega
      rw [hval]
      by_cases hjt : j = n / w * w + (w - 1 - n % w)
      · have h1 : (n / w * w + (w - 1 - n % w)) % w = w - 1 - n % w :=
          index_mod w _ _ (by omega)
        have h2 : (n / w * w + (w - 1 - n % w)) / w = n / w :=
          index_div w _ _ (by omega)
        have h3 : w - 1 - j % w = n % w := by rw [hjt, h1]; omega
        have h4 : j / w * w + (w - 1 - j % w) = n := by
          rw [h3, hjt, h2]; exact hneq
        have hnP : n < P.length := by omega
        rw [hjt, List.getElem?_set_self (by rw [hlen, hP, ← hjt]; exact hj), ← hjt,
          if_pos ⟨by omega, by omega⟩, h4,
          List.getD_eq_getElem P _ hnP, List.getElem?_eq_getElem hnP]
      · rw [List.getElem?_set_ne (fun hh => hjt hh.symm), ih P hP hn' j hj]
        have hexcl : j / w * w + (w - 1 - j % w) = n → False := by
          intro hsn
          apply hjt
          have hm : n % w = w - 1 - j % w := by
            rw [← hsn]; exact index_mod w (j / w) (w - 1 - j % w) (by omega)
          have hd : n / w = j / w := by
            rw [← hsn]; exact index_div w (j / w) (w - 1 - j % w) (by omega)
          rw [hm, hd]
          have : w - 1 - (w - 1 - j % w) = j % w := by omega
          rw [this, hjeq]
        by_cases hcnd : w - 1 - j % w < w / 2 ∧ j / w * w + (w - 1 - j % w) < n
        · rw [if_pos hcnd, if_pos ⟨hcnd.1, by omega⟩]
        · rw [if_neg hcnd, if_neg]
          rintro ⟨a, b⟩
          apply hcnd
          refine ⟨a, ?_⟩
          rcases Nat.lt_succ_iff_lt_or_eq.mp b with hb | hb
          · exact hb
          · exact absurd hb hexcl
    · rw [if_neg hc, ih P hP hn' j hj]
      have hexcl : j / w * w + (w - 1 - j % w) = n → w - 1 - j % w < w / 2 → False := by
        intro hsn hlt
        apply hc
        have hm : n % w = w - 1 - j % w := by
          rw [← hsn]; exact index_mod w (j / w) (w - 1 - j % w) (by omega)
        omega
      by_cases hcnd : w - 1 - j % w < w / 2 ∧ j / w * w + (w - 1 - j % w) < n
      · rw [if_pos hcnd, if_pos ⟨hcnd.1, by omega⟩]
      · rw [if_neg hcnd, if_neg]
        rintro ⟨a, b⟩
        apply hcnd
        refine ⟨a, ?_⟩
        rcases Nat.lt_succ_iff_lt_or_eq.mp b with hb | hb
        · exact hb
        · exact absurd a (hexcl hb)

/-- `fn mirror_x` preserves the buffer length. -/
theorem mirror_x_length (img : Image) :
    (mirror_x img).pixels.length = img.pixels.length :=
  foldl_length_pres _ (fun px i => by
    show (if i % img.width < img.width / 2 then
        px.set (i / img.width * img.width + (img.width - 1 - i % img.width))
          (px.getD i ⟨0, 0, 0⟩)
      else px).length = px.length
    split <;> simp) _ _

/-- Pointwise description of `fn mirror_x` on a well-formed buffer:
mirror-target columns receive the pre-call pixel of their source
column, all other pixels are untouched. -/
theorem mirror_x_pixels_getElem? (img : Image) (hwf : img.WellFormed)
    (j : ℕ) (hj : j < img.pixels.length) :
    (mirror_x img).pixels[j]? =
      if img.width - 1 - j % img.width < img.width / 2 then
        img.pixels[j / img.width * img.width + (img.width - 1 - j % img.width)]?
      else img.pixels[j]? := by
  obtain ⟨hw, hh, hlen⟩ := hwf
  have key := mirror_fold_getElem? img.width img.height hw
    (fun px i => if i % img.width < img.width / 2 then
        px.set (i / img.width * img.width + (img.width - 1 - i % img.width))
          (px.getD i ⟨0, 0, 0⟩)
      else px)
    (fun px i => rfl)
    img.pixels.length img.pixels hlen (le_of_eq hlen) j (hlen ▸ hj)
  refine Eq.trans (?_ : (mirror_x img).pixels[j]? = _) (Eq.trans key ?_)
  · rfl
  · have hcj : j % img.width < img.width := Nat.mod_lt _ hw
    have hsrc : j / img.width * img.width + (img.width - 1 - j % img.width) <
        img.pixels.length := by
      rw [hlen]
      exact index_lt_of_row_col (row_lt_of_index_lt hw (hlen ▸ hj)) (by omega)
    exact if_congr ⟨fun h => h.1, fun h => ⟨h, hsrc⟩⟩ rfl rfl

/-- **C4.** After `filter(image, MirrorX)` on a well-formed buffer:
pixels left of `mid = W/2` keep their original value; the pixel at
column `W-1-col` of each row equals the pre-call pixel at column `col`
of that row, for every `col < W/2`; and all remaining columns
(`W/2 ≤ col < W - W/2`, which for odd `W` is exactly the center
column) are unchanged — every copied value is the pre-call source
value. -/
theorem C4_mirror_x_spec (img : Image) (hwf : img.WellFormed) :
    (∀ row col, row < img.height → col < img.width / 2 →
      (img.filter FilterType.MirrorX).getPixel (img.row_col_to_index row col) =
        img.getPixel (img.row_col_to_index row col)) ∧
    (∀ row col, row < img.height → col < img.width / 2 →
      (img.filter FilterType.MirrorX).getPixel
          (img.row_col_to_index row (img.width - 1 - col)) =
        img.getPixel (img.row_col_to_index row col)) ∧
    (∀ row col, row < img.height → img.width / 2 ≤ col →
      col < img.width - img.width / 2 →
      (img.filter FilterType.MirrorX).getPixel (img.row_col_to_index row col) =
        img.getPixel (img.row_col_to_index row col)) := by
  obtain ⟨hw, hh, hlen⟩ := hwf
  refine ⟨?_, ?_, ?_⟩
  · intro row col hr hc
    have hcw : col < img.width := by omega
    have hj : row * img.width + col < img.pixels.length := by
      rw [hlen]; exact index_lt_of_row_col hr hcw
    have hx := mirror_x_pixels_getElem? img ⟨hw, hh, hlen⟩ _ hj
    rw [index_mod img.width row col hcw, if_neg (by omega)] at hx
    show (mirror_x img).getPixel (row * img.width + col) =
      img.getPixel (row * img.width + col)
    simp only [Image.getPixel, List.getD_eq_getElem?_getD, hx]
  · intro row col hr hc
    have hcw : img.width - 1 - col < img.width := by omega
    have hj : row * img.width + (img.width - 1 - col) < img.pixels.length := by
      rw [hlen]; exact index_lt_of_row_col hr hcw
    have hx := mirror_x_pixels_getElem? img ⟨hw, hh, hlen⟩ _ hj
    rw [index_mod img.width row _ hcw, index_div img.width row _ hcw] at hx
    have heq : img.width - 1 - (img.width - 1 - col) = col := by omega
    rw [heq, if_pos hc] at hx
    show (mirror_x img).getPixel (row * img.width + (img.width - 1 - col)) =
      img.getPixel (row * img.width + col)
    simp only [Image.getPixel, List.getD_eq_getElem?_getD, hx]
  · intro row col hr hc1 hc2
    have hcw : col < img.width := by omega
    have hj : row * img.width + col < img.pixels.length := by
      rw [hlen]; exact index_lt_of_row_col hr hcw
    have hx := mirror_x_pixels_getElem? img ⟨hw, hh, hlen⟩ _ hj
    rw [index_mod img.width row col hcw, if_neg (by omega)] at hx
    show (mirror_x img).getPixel (row * img.width + col) =
      img.getPixel (row * img.width + col)
    simp only [Image.getPixel, List.getD_eq_getElem?_getD, hx]

/-- Witness for C4 at the repository's own 2x2 mirror test input. -/
theorem C4_witness :
    (Image.filter ⟨2, 2, [⟨100, 100, 100⟩, ⟨0, 0, 0⟩, ⟨100, 100, 100⟩, ⟨0, 0, 0⟩]⟩
        FilterType.MirrorX).getPixel
      (Image.row_col_to_index ⟨2, 2, [⟨100, 100, 100⟩, ⟨0, 0, 0⟩, ⟨100, 100, 100⟩, ⟨0, 0, 0⟩]⟩
        0 ((2 : ℕ) - 1 - 0)) =
    Image.getPixel ⟨2, 2, [⟨100, 100, 100⟩, ⟨0, 0, 0⟩, ⟨100, 100, 100⟩, ⟨0, 0, 0⟩]⟩
      (Image.row_col_to_index ⟨2, 2, [⟨100, 100, 100⟩, ⟨0, 0, 0⟩, ⟨100, 100, 100⟩, ⟨0, 0, 0⟩]⟩
        0 0) :=
  (C4_mirror_x_spec ⟨2, 2, [⟨100, 100, 100⟩, ⟨0, 0, 0⟩, ⟨100, 100, 100⟩, ⟨0, 0, 0⟩]⟩
    (by decide)).2.1 0 0 (by decide) (by decide)

/-- **C7.** `filter` with `MirrorX` is idempotent on well-formed
buffers: applying it twice gives exactly the buffer of applying it
once. -/
theorem C7_mirror_x_idempotent (img : Image) (hwf : img.WellFormed) :
    (img.filter FilterType.MirrorX).filter FilterType.MirrorX =
      img.filter FilterType.MirrorX := by
  obtain ⟨hw, hh, hlen⟩ := hwf
  have hlen2 : (mirror_x img).pixels.length = img.pixels.length := mirror_x_length img
  have hwf2 : (mirror_x img).WellFormed := ⟨hw, hh, by rw [hlen2]; exact hlen⟩
  show mirror_x (mirror_x img) = mirror_x img
  refine Image.ext rfl rfl (List.ext_getElem? ?_)
  intro j
  by_cases hj : j < img.pixels.length
  · have houter := mirror_x_pixels_getElem? (mirror_x img) hwf2 j (by rw [hlen2]; exact hj)
    have hwidth : (mirror_x img).width = img.width := rfl
    rw [hwidth] at houter
    have hinner := mirror_x_pixels_getElem? img ⟨hw, hh, hlen⟩ j hj
    have hcj : j % img.width < img.width := Nat.mod_lt _ hw
    by_cases hcond : img.width - 1 - j % img.width < img.width / 2
    · have hsrcj : j / img.width * img.width + (img.width - 1 - j % img.width) <
          img.pixels.length := by
        rw [hlen]
        exact index_lt_of_row_col (row_lt_of_index_lt hw (hlen ▸ hj)) (by omega)
      have hsrcmod : (j / img.width * img.width + (img.width - 1 - j % img.width)) %
          img.width = img.width - 1 - j % img.width :=
        index_mod _ _ _ (by omega)
      have hinner_src := mirror_x_pixels_getElem? img ⟨hw, hh, hlen⟩ _ hsrcj
      rw [hsrcmod, if_neg (by omega)] at hinner_src
      rw [houter, if_pos hcond, hinner_src, hinner, if_pos hcond]
    · rw [houter, if_neg hcond]
  · have h1 : (mirror_x (mirror_x img)).pixels.length ≤ j := by
      rw [mirror_x_length, mirror_x_length]; omega
    have h2 : (mirror_x img).pixels.length ≤ j := by rw [mirror_x_length]; omega
    rw [List.getElem?_eq_none h1, List.getElem?_eq_none h2]

/-- Witness for C7 at the repository's own 2x2 mirror test input. -/
theorem C7_witness :
    (Image.filter
        (Image.filter ⟨2, 2, [⟨100, 100, 100⟩, ⟨0, 0, 0⟩, ⟨100, 100, 100⟩, ⟨0, 0, 0⟩]⟩
          FilterType.MirrorX) FilterType.MirrorX) =
      Image.filter ⟨2, 2, [⟨100, 100, 100⟩, ⟨0, 0, 0⟩, ⟨100, 100, 100⟩, ⟨0, 0, 0⟩]⟩
        FilterType.MirrorX :=
  C7_mirror_x_idempotent ⟨2, 2, [⟨100, 100, 100⟩, ⟨0, 0, 0⟩, ⟨100, 100, 100⟩, ⟨0, 0, 0⟩]⟩
    (by decide)

/-- **C1.** For every 3x3 kernel and well-formed buffer, after
`filter(image, Convolution(kernel))` every interior pixel equals,
channel by channel, the convolution evaluator applied to that
channel's 3x3 neighborhood of the *pre-call* image: every neighbor
read comes from the snapshot taken before any write. -/
theorem C1_convolution_interior (m : ConvolutionMatrix) (img : Image)
    (hwf : img.WellFormed) (row col : ℕ)
    (hr1 : 1 ≤ row) (hr2 : row ≤ img.height - 2)
    (hc1 : 1 ≤ col) (hc2 : col ≤ img.width - 2) :
    (img.filter (FilterType.Convolution m)).getPixel (img.row_col_to_index row col) =
      Pixel.rgb
        (apply_convolution (img.neighbourChannel (img.row_col_to_index row col) Pixel.red) m)
        (apply_convolution (img.neighbourChannel (img.row_col_to_index row col) Pixel.green) m)
        (apply_convolution (img.neighbourChannel (img.row_col_to_index row col) Pixel.blue) m) := by
  obtain ⟨hw, hh, hlen⟩ := hwf
  have hcw : col < img.width := by omega
  have hrh : row < img.height := by omega
  have hj : row * img.width + col < img.pixels.length := by
    rw [hlen]; exact index_lt_of_row_col hrh hcw
  have hx := convolution_pixels_getElem? img m (row * img.width + col)
  rw [index_mod img.width row col hcw, index_div img.width row col hcw,
    if_pos ⟨hj, by omega, by omega, by omega, by omega⟩] at hx
  show (convolution img m).getPixel (row * img.width + col) = _
  simp only [Image.getPixel, List.getD_eq_getElem?_getD, hx, Option.getD_some]
  rfl

/-- Witness for C1 at the repository's 3x3 uniform test buffer and the
zero kernel, at the single interior position `(1,1)`. -/
theorem C1_witness :
    (Image.filter ⟨3, 3, List.replicate 9 ⟨100, 150, 200⟩⟩
        (FilterType.Convolution (fun _ _ => 0))).getPixel
      (Image.row_col_to_index ⟨3, 3, List.replicate 9 ⟨100, 150, 200⟩⟩ 1 1) =
    Pixel.rgb
      (apply_convolution
        (Image.neighbourChannel ⟨3, 3, List.replicate 9 ⟨100, 150, 200⟩⟩
          (Image.row_col_to_index ⟨3, 3, List.replicate 9 ⟨100, 150, 200⟩⟩ 1 1) Pixel.red)
        (fun _ _ => 0))
      (apply_convolution
        (Image.neighbourChannel ⟨3, 3, List.replicate 9 ⟨100, 150, 200⟩⟩
          (Image.row_col_to_index ⟨3, 3, List.replicate 9 ⟨100, 150, 200⟩⟩ 1 1) Pixel.green)
        (fun _ _ => 0))
      (apply_convolution
        (Image.neighbourChannel ⟨3, 3, List.replicate 9 ⟨100, 150, 200⟩⟩
          (Image.row_col_to_index ⟨3, 3, List.replicate 9 ⟨100, 150, 200⟩⟩ 1 1) Pixel.blue)
        (fun _ _ => 0)) :=
  C1_convolution_interior (fun _ _ => 0) ⟨3, 3, List.replicate 9 ⟨100, 150, 200⟩⟩
    (by decide) 1 1 (by decide) (by decide) (by decide) (by decide)

/-- The convolution evaluator maps the all-zero kernel to 0. -/
theorem apply_convolution_zero (n : Fin 3 → Fin 3 → ℕ) :
    apply_convolution n (fun _ _ => 0) = 0 := by
  simp [apply_convolution, clampToByte, show Rat.floor 0 = 0 from rfl]

/-- **C6.** For every 3x3 kernel and every well-formed buffer,
`filter(image, Convolution(kernel))` leaves each border pixel (row 0,
last row, column 0 or last column) byte-for-byte unchanged; and on the
3x3 uniform `(100,150,200)` input the zero kernel yields `(0,0,0)` at
the single interior index 4 with all 8 border pixels unchanged. -/
theorem C6_convolution_border_noop :
    (∀ (m : ConvolutionMatrix) (img : Image), img.WellFormed →
      ∀ row col, row < img.height → col < img.width →
        (row = 0 ∨ row = img.height - 1 ∨ col = 0 ∨ col = img.width - 1) →
        (img.filter (FilterType.Convolution m)).getPixel (img.row_col_to_index row col) =
          img.getPixel (img.row_col_to_index row col)) ∧
    Image.filter ⟨3, 3, List.replicate 9 ⟨100, 150, 200⟩⟩
        (FilterType.Convolution (fun _ _ => 0)) =
      ⟨3, 3, [⟨100, 150, 200⟩, ⟨100, 150, 200⟩, ⟨100, 150, 200⟩, ⟨100, 150, 200⟩,
        ⟨0, 0, 0⟩, ⟨100, 150, 200⟩, ⟨100, 150, 200⟩, ⟨100, 150, 200⟩,
        ⟨100, 150, 200⟩]⟩ := by
  constructor
  · intro m img hwf row col hr hc hborder
    obtain ⟨hw, hh, hlen⟩ := hwf
    have hj : row * img.width + col < img.pixels.length := by
      rw [hlen]; exact index_lt_of_row_col hr hc
    have hx := convolution_pixels_getElem? img m (row * img.width + col)
    rw [index_mod img.width row col hc, index_div img.width row col hc,
      if_neg (by rintro ⟨-, h1, h2, h3, h4⟩; omega)] at hx
    show (convolution img m).getPixel (row * img.width + col) =
      img.getPixel (row * img.width + col)
    simp only [Image.getPixel, List.getD_eq_getElem?_getD, hx]
  · show convolution ⟨3, 3, List.replicate 9 ⟨100, 150, 200⟩⟩ (fun _ _ => 0) = _
    refine Image.ext rfl rfl (List.ext_getElem? fun j => ?_)
    have hx := convolution_pixels_getElem? ⟨3, 3, List.replicate 9 ⟨100, 150, 200⟩⟩
      (fun _ _ => 0) j
    by_cases hj : j < 9
    · interval_cases j <;>
        simp only [hx, apply_convolution_zero] <;> decide
    · rw [show (convolution ⟨3, 3, List.replicate 9 ⟨100, 150, 200⟩⟩ fun _ _ => 0).pixels[j]? =
          (List.replicate 9 (⟨100, 150, 200⟩ : Pixel))[j]? from
            hx.trans (if_neg (by rintro ⟨h, -⟩; simp at h; omega)),
        List.getElem?_eq_none (by simp; omega), List.getElem?_eq_none (by simp; omega)]

/-- Witness for C6 at a border position of the 3x3 uniform buffer. -/
theorem C6_witness :
    (Image.filter ⟨3, 3, List.replicate 9 ⟨100, 150, 200⟩⟩
        (FilterType.Convolution (fun _ _ => 0))).getPixel
      (Image.row_col_to_index ⟨3, 3, List.replicate 9 ⟨100, 150, 200⟩⟩ 0 0) =
    Image.getPixel ⟨3, 3, List.replicate 9 ⟨100, 150, 200⟩⟩
      (Image.row_col_to_index ⟨3, 3, List.replicate 9 ⟨100, 150, 200⟩⟩ 0 0) :=
  C6_convolution_border_noop.1 (fun _ _ => 0) ⟨3, 3, List.replicate 9 ⟨100, 150, 200⟩⟩
    (by decide) 0 0 (by decide) (by decide) (Or.inl rfl)

/-- Pointwise description of `fn edge_detection`: indices off the
1-pixel border are set to the gray gradient magnitude computed from
the pre-call snapshot, everything else keeps its grayscaled value. -/
theorem edge_detection_pixels_getElem? (img : Image) (j : ℕ) :
    (edge_detection img).pixels[j]? =
      if j < img.pixels.length ∧
          ¬(j / img.width = 0 ∨ j / img.width = img.height - 1 ∨
            j % img.width = 0 ∨ j % img.width = img.width - 1) then
        some ⟨gradMag (edSumX img j) (edSumY img j),
          gradMag (edSumX img j) (edSumY img j),
          gradMag (edSumX img j) (edSumY img j)⟩
      else (img.pixels.map Pixel.grayscale)[j]? := by
  have key := foldl_writeAt_getElem?
    (fun i => ¬(i / img.width = 0 ∨ i / img.width = img.height - 1 ∨
      i % img.width = 0 ∨ i % img.width = img.width - 1))
    (fun i => ⟨gradMag (edSumX img i) (edSumY img i),
      gradMag (edSumX img i) (edSumY img i), gradMag (edSumX img i) (edSumY img i)⟩)
    (fun px i =>
      if i / img.width = 0 ∨ i / img.width = img.height - 1 ∨
          i % img.width = 0 ∨ i % img.width = img.width - 1 then px
      else px.set i ((px.getD i ⟨0, 0, 0⟩).set_gray
        (gradMag (edSumX img i) (edSumY img i))))
    (fun px i => by
      by_cases h : i / img.width = 0 ∨ i / img.width = img.height - 1 ∨
          i % img.width = 0 ∨ i % img.width = img.width - 1
      · simp [h, Pixel.set_gray]
      · simp [h, Pixel.set_gray])
    img.pixels.length (img.pixels.map Pixel.grayscale) j
  refine Eq.trans (?_ : (edge_detection img).pixels[j]? = _) (Eq.trans key ?_)
  · rfl
  · rw [List.length_map]
    exact if_congr ⟨fun h => ⟨h.1, h.2.1⟩, fun h => ⟨h.1, h.2, h.1⟩⟩ rfl rfl

/-- Pointwise description of the body of `fn edge` for a fixed kernel
pair: indices at least `margin` from every border are set to the gray
gradient magnitude of the kernel sums over the pre-call snapshot,
everything else keeps its grayscaled value. -/
theorem edgeWith_pixels_getElem? (mx my : List (List ℤ)) (img : Image) (j : ℕ) :
    (edgeWith mx my img).pixels[j]? =
      if j < img.pixels.length ∧
          ¬(j / img.width < mx.length / 2 ∨
            j / img.width > img.height - (mx.length / 2 + 1) ∨
            j % img.width < mx.length / 2 ∨
            j % img.width > img.width - (mx.length / 2 + 1)) then
        some ⟨gradMag
            (sobelSums mx my img (j / img.width) (j % img.width) (mx.length / 2)).1
            (sobelSums mx my img (j / img.width) (j % img.width) (mx.length / 2)).2,
          gradMag
            (sobelSums mx my img (j / img.width) (j % img.width) (mx.length / 2)).1
            (sobelSums mx my img (j / img.width) (j % img.width) (mx.length / 2)).2,
          gradMag
            (sobelSums mx my img (j / img.width) (j % img.width) (mx.length / 2)).1
            (sobelSums mx my img (j / img.width) (j % img.width) (mx.length / 2)).2⟩
      else (img.pixels.map Pixel.grayscale)[j]? := by
  have key := foldl_writeAt_getElem?
    (fun i => ¬(i / img.width < mx.length / 2 ∨
      i / img.width > img.height - (mx.length / 2 + 1) ∨
      i % img.width < mx.length / 2 ∨
      i % img.width > img.width - (mx.length / 2 + 1)))
    (fun i => ⟨gradMag
        (sobelSums mx my img (i / img.width) (i % img.width) (mx.length / 2)).1
        (sobelSums mx my img (i / img.width) (i % img.width) (mx.length / 2)).2,
      gradMag
        (sobelSums mx my img (i / img.width) (i % img.width) (mx.length / 2)).1
        (sobelSums mx my img (i / img.width) (i % img.width) (mx.length / 2)).2,
      gradMag
        (sobelSums mx my img (i / img.width) (i % img.width) (mx.length / 2)).1
        (sobelSums mx my img (i / img.width) (i % img.width) (mx.length / 2)).2⟩)
    (fun px i =>
      if i / img.width < mx.length / 2 ∨
          i / img.width > img.height - (mx.length / 2 + 1) ∨
          i % img.width < mx.length / 2 ∨
          i % img.width > img.width - (mx.length / 2 + 1) then px
      else px.set i ((px.getD i ⟨0, 0, 0⟩).set_gray (gradMag
        (sobelSums mx my img (i / img.width) (i % img.width) (mx.length / 2)).1
        (sobelSums mx my img (i / img.width) (i % img.width) (mx.length / 2)).2)))
    (fun px i => by
      by_cases h : i / img.width < mx.length / 2 ∨
          i / img.width > img.height - (mx.length / 2 + 1) ∨
          i % img.width < mx.length / 2 ∨
          i % img.width > img.width - (mx.length / 2 + 1)
      · simp [h, Pixel.set_gray]
      · simp [h, Pixel.set_gray])
    img.pixels.length (img.pixels.map Pixel.grayscale) j
  refine Eq.trans (?_ : (edgeWith mx my img).pixels[j]? = _) (Eq.trans key ?_)
  · rfl
  · rw [List.length_map]
    exact if_congr ⟨fun h => ⟨h.1, h.2.1⟩, fun h => ⟨h.1, h.2, h.1⟩⟩ rfl rfl

/-- Every pixel produced by `fn edge_detection` has equal channels. -/
theorem edge_detection_all_gray (img : Image) :
    ∀ p ∈ (edge_detection img).pixels, p.red = p.green ∧ p.green = p.blue := by
  intro p hp
  obtain ⟨i, hpi⟩ := List.mem_iff_getElem?.mp hp
  rw [edge_detection_pixels_getElem?] at hpi
  split at hpi
  · cases hpi
    exact ⟨rfl, rfl⟩
  · rw [List.getElem?_map] at hpi
    obtain ⟨q, -, hq⟩ := Option.map_eq_some'.mp hpi
    subst hq
    exact ⟨rfl, rfl⟩

/-- Every pixel produced by the body of `fn edge` has equal channels. -/
theorem edgeWith_all_gray (mx my : List (List ℤ)) (img : Image) :
    ∀ p ∈ (edgeWith mx my img).pixels, p.red = p.green ∧ p.green = p.blue := by
  intro p hp
  obtain ⟨i, hpi⟩ := List.mem_iff_getElem?.mp hp
  rw [edgeWith_pixels_getElem?] at hpi
  split at hpi
  · cases hpi
    exact ⟨rfl, rfl⟩
  · rw [List.getElem?_map] at hpi
    obtain ⟨q, -, hq⟩ := Option.map_eq_some'.mp hpi
    subst hq
    exact ⟨rfl, rfl⟩

/-- **C9.** On every well-formed buffer, `filter(image, EdgeDetection)`
— and `filter(image, SobelFilter(num))` for `num` in `{1,2,3}` —
produces a pure grayscale image: every pixel of the result has all
three channels equal (margins get the grayscale conversion, computed
pixels are written with `set_gray`). -/
theorem C9_edge_outputs_grayscale (img : Image) (hwf : img.WellFormed) :
    (∀ p ∈ (img.filter FilterType.EdgeDetection).pixels,
      p.red = p.green ∧ p.green = p.blue) ∧
    (∀ num : ℕ, num = 1 ∨ num = 2 ∨ num = 3 →
      ∀ p ∈ (img.filter (FilterType.SobelFilter num)).pixels,
        p.red = p.green ∧ p.green = p.blue) := by
  refine ⟨edge_detection_all_gray img, ?_⟩
  intro num hnum
  rcases hnum with h | h | h <;> subst h
  · exact edgeWith_all_gray SOBEL_1_X SOBEL_1_Y img
  · exact edgeWith_all_gray SOBEL_2_X SOBEL_2_Y img
  · exact edgeWith_all_gray SOBEL_3_X SOBEL_3_Y img

/-- Witness for C9: the center pixel `(174,174,174)` of the filtered
3x3 Sobel test buffer has equal channels. -/
theorem C9_witness :
    (⟨174, 174, 174⟩ : Pixel).red = (⟨174, 174, 174⟩ : Pixel).green ∧
    (⟨174, 174, 174⟩ : Pixel).green = (⟨174, 174, 174⟩ : Pixel).blue :=
  (C9_edge_outputs_grayscale
    ⟨3, 3, [⟨119, 119, 119⟩, ⟨80, 80, 80⟩, ⟨122, 122, 122⟩, ⟨177, 177, 177⟩,
      ⟨154, 154, 154⟩, ⟨212, 212, 212⟩, ⟨89, 89, 89⟩, ⟨25, 25, 25⟩, ⟨152, 152, 152⟩]⟩
    (by decide)).1 ⟨174, 174, 174⟩ (by decide)

/-- **C8.** The interior of `filter(..., EdgeDetection)` depends only
on the red channel of the input: two well-formed images of equal
dimensions whose red channels agree at every buffer index produce
identical pixels at every interior position. -/
theorem C8_edge_detection_red_only (A B : Image)
    (hwfA : A.WellFormed) (hwfB : B.WellFormed)
    (hw : A.width = B.width) (hh : A.height = B.height)
    (hred : ∀ i, i < A.pixels.length → (A.getPixel i).red = (B.getPixel i).red) :
    ∀ row col, 0 < row → row < A.height - 1 → 0 < col → col < A.width - 1 →
      (A.filter FilterType.EdgeDetection).getPixel (A.row_col_to_index row col) =
        (B.filter FilterType.EdgeDetection).getPixel (B.row_col_to_index row col) := by
  intro row col hr1 hr2 hc1 hc2
  obtain ⟨hwA, hhA, hlenA⟩ := hwfA
  obtain ⟨hwB, hhB, hlenB⟩ := hwfB
  have hcw : col < A.width := by omega
  have hrh : row < A.height := by omega
  have hjA : row * A.width + col < A.pixels.length := by
    rw [hlenA]; exact index_lt_of_row_col hrh hcw
  have hjB : row * B.width + col < B.pixels.length := by
    rw [hlenB, ← hw, ← hh]; exact index_lt_of_row_col hrh hcw
  have hA := edge_detection_pixels_getElem? A (row * A.width + col)
  have hB := edge_detection_pixels_getElem? B (row * B.width + col)
  rw [index_mod A.width row col hcw, index_div A.width row col hcw,
    if_pos ⟨hjA, by omega⟩] at hA
  rw [index_mod B.width row col (by omega), index_div B.width row col (by omega),
    if_pos ⟨hjB, by omega⟩] at hB
  show (edge_detection A).getPixel (row * A.width + col) =
    (edge_detection B).getPixel (row * B.width + col)
  simp only [Image.getPixel, List.getD_eq_getElem?_getD, hA, hB, Option.getD_some]
  have hmul1 : (row + 1) * A.width = row * A.width + A.width := by
    rw [Nat.add_mul, Nat.one_mul]
  have hb : (row + 1) * A.width + (col + 1) < A.pixels.length := by
    rw [hlenA]; exact index_lt_of_row_col (by omega) (by omega)
  have hsum : edSumX A (row * A.width + col) = edSumX B (row * B.width + col) ∧
      edSumY A (row * A.width + col) = edSumY B (row * B.width + col) := by
    constructor <;>
      simp only [edSumX, edSumY, ← hw] <;>
      rw [hred _ (by omega), hred _ (by omega), hred _ (by omega),
        hred _ (by omega), hred _ (by omega), hred _ (by omega)]
  rw [hsum.1, hsum.2]

/-- The binary search of `sqrtGo` maintains `lo² ≤ n < hi²` and lands
on the integer square root when given enough fuel. -/
theorem sqrtGo_spec (n : ℕ) : ∀ (fuel lo hi : ℕ), lo * lo ≤ n → n < hi * hi →
    lo < hi → hi - lo ≤ fuel + 1 →
    sqrtGo n fuel lo hi * sqrtGo n fuel lo hi ≤ n ∧
      n < (sqrtGo n fuel lo hi + 1) * (sqrtGo n fuel lo hi + 1) := by
  intro fuel
  induction fuel with
  | zero =>
    intro lo hi h1 h2 h3 h4
    have hhi : hi = lo + 1 := by omega
    simp only [sqrtGo]
    exact ⟨h1, by rw [← hhi]; exact h2⟩
  | succ fuel ih =>
    intro lo hi h1 h2 h3 h4
    simp only [sqrtGo]
    by_cases hmid : (lo + hi) / 2 = lo
    · rw [if_pos hmid]
      have hhi : hi = lo + 1 := by omega
      exact ⟨h1, by rw [← hhi]; exact h2⟩
    · rw [if_neg hmid]
      by_cases hle : (lo + hi) / 2 * ((lo + hi) / 2) ≤ n
      · rw [if_pos hle]
        exact ih _ _ hle h2 (by omega) (by omega)
      · rw [if_neg hle]
        exact ih _ _ h1 (by omega) (by omega) (by omega)

/-- `intSqrt` computes `Nat.sqrt`. -/
theorem intSqrt_eq_sqrt (n : ℕ) : intSqrt n = Nat.sqrt n := by
  have hn : n < (n + 1) * (n + 1) := by nlinarith
  obtain ⟨h1, h2⟩ := sqrtGo_spec n (n + 2) 0 (n + 1) (by simp) hn (by omega) (by omega)
  have hle : intSqrt n ≤ Nat.sqrt n := Nat.le_sqrt.mpr h1
  have hlt : Nat.sqrt n < intSqrt n + 1 := Nat.sqrt_lt.mpr h2
  omega

/-- Witness for C8: two 3x3 buffers with equal red channels but
different green/blue channels give the same filtered center pixel. -/
theorem C8_witness :
    (Image.filter ⟨3, 3, [⟨119, 0, 1⟩, ⟨80, 2, 3⟩, ⟨122, 4, 5⟩, ⟨177, 6, 7⟩,
        ⟨154, 8, 9⟩, ⟨212, 10, 11⟩, ⟨89, 12, 13⟩, ⟨25, 14, 15⟩, ⟨152, 16, 17⟩]⟩
      FilterType.EdgeDetection).getPixel
      (Image.row_col_to_index ⟨3, 3, [⟨119, 0, 1⟩, ⟨80, 2, 3⟩, ⟨122, 4, 5⟩, ⟨177, 6, 7⟩,
        ⟨154, 8, 9⟩, ⟨212, 10, 11⟩, ⟨89, 12, 13⟩, ⟨25, 14, 15⟩, ⟨152, 16, 17⟩]⟩ 1 1) =
    (Image.filter ⟨3, 3, [⟨119, 200, 201⟩, ⟨80, 202, 203⟩, ⟨122, 204, 205⟩, ⟨177, 206, 207⟩,
        ⟨154, 208, 209⟩, ⟨212, 210, 211⟩, ⟨89, 212, 213⟩, ⟨25, 214, 215⟩, ⟨152, 216, 217⟩]⟩
      FilterType.EdgeDetection).getPixel
      (Image.row_col_to_index ⟨3, 3, [⟨119, 200, 201⟩, ⟨80, 202, 203⟩, ⟨122, 204, 205⟩,
        ⟨177, 206, 207⟩, ⟨154, 208, 209⟩, ⟨212, 210, 211⟩, ⟨89, 212, 213⟩, ⟨25, 214, 215⟩,
        ⟨152, 216, 217⟩]⟩ 1 1) :=
  C8_edge_detection_red_only
    ⟨3, 3, [⟨119, 0, 1⟩, ⟨80, 2, 3⟩, ⟨122, 4, 5⟩, ⟨177, 6, 7⟩, ⟨154, 8, 9⟩,
      ⟨212, 10, 11⟩, ⟨89, 12, 13⟩, ⟨25, 14, 15⟩, ⟨152, 16, 17⟩]⟩
    ⟨3, 3, [⟨119, 200, 201⟩, ⟨80, 202, 203⟩, ⟨122, 204, 205⟩, ⟨177, 206, 207⟩,
      ⟨154, 208, 209⟩, ⟨212, 210, 211⟩, ⟨89, 212, 213⟩, ⟨25, 214, 215⟩, ⟨152, 216, 217⟩]⟩
    (by decide) (by decide) rfl rfl (by decide) 1 1
    (by decide) (by decide) (by decide) (by decide)

/-- The generic kernel loop of `fn edge` instantiated with the 3x3
Sobel pair computes, at row `r` and column `c`, exactly the two
hand-unrolled gradient sums of `fn edge_detection` at the flat index
`r*width + c`. -/
theorem sobelSums_one (img : Image) (r c : ℕ) (hr : 1 ≤ r) (hc : 1 ≤ c) :
    sobelSums SOBEL_1_X SOBEL_1_Y img r c 1 =
      (edSumX img (r * img.width + c), edSumY img (r * img.width + c)) := by
  simp only [sobelSums, show List.range (2 * 1 + 1) = [0, 1, 2] from rfl,
    List.foldl_cons, List.foldl_nil, SOBEL_1_X, SOBEL_1_Y, List.getD,
    Image.row_col_to_index]
  simp only [List.get?_cons_zero, List.get?_cons_succ, Option.getD_some,
    Nat.cast_ofNat, Nat.cast_one, Nat.cast_zero]
  have T0 : ∀ k : ℕ, 1 ≤ k → ((k : ℤ) + (0 - 1)).toNat = k - 1 := by intro k hk; omega
  have T1 : ∀ k : ℕ, ((k : ℤ) + (1 - 1)).toNat = k := by intro k; omega
  have T2 : ∀ k : ℕ, ((k : ℤ) + (2 - 1)).toNat = k + 1 := by intro k; omega
  simp only [T0 r hr, T0 c hc, T1, T2]
  have hm1 : (r - 1) * img.width = r * img.width - img.width := by
    rw [Nat.sub_mul, Nat.one_mul]
  have hm2 : (r + 1) * img.width = r * img.width + img.width := by
    rw [Nat.add_mul, Nat.one_mul]
  have hwle : img.width ≤ r * img.width := Nat.le_mul_of_pos_left img.width (by omega)
  have e3 : r * img.width + c - img.width = (r - 1) * img.width + c := by omega
  have f3 : r * img.width + c + img.width = (r + 1) * img.width + c := by omega
  have A1 : ∀ x : ℕ, x + c + 1 = x + (c + 1) := fun x => by omega
  have A2 : ∀ x : ℕ, x + c - 1 = x + (c - 1) := fun x => by omega
  simp only [edSumX, edSumY, e3, f3, A1, A2, Prod.mk.injEq]
  constructor <;> omega

/-- The hand-unrolled fixed 3x3 path and the generic kernel-loop path
with the 3x3 Sobel pair agree buffer-for-buffer on every well-formed
image with both dimensions at least 2. -/
theorem edge_detection_eq_sobel1 (img : Image) (hwf : img.WellFormed)
    (hw2 : 2 ≤ img.width) (hh2 : 2 ≤ img.height) :
    img.filter FilterType.EdgeDetection = img.filter (FilterType.SobelFilter 1) := by
  obtain ⟨hw, hh, hlen⟩ := hwf
  show edge_detection img = edge img 1
  rw [edge, if_pos rfl]
  refine Image.ext rfl rfl (List.ext_getElem? fun j => ?_)
  rw [edge_detection_pixels_getElem?, edgeWith_pixels_getElem?,
    show SOBEL_1_X.length / 2 = 1 from rfl]
  by_cases hj : j < img.pixels.length
  · have hrlt : j / img.width < img.height := row_lt_of_index_lt hw (hlen ▸ hj)
    have hclt : j % img.width < img.width := Nat.mod_lt _ hw
    by_cases hA : j / img.width = 0 ∨ j / img.width = img.height - 1 ∨
        j % img.width = 0 ∨ j % img.width = img.width - 1
    · rw [if_neg (fun h => h.2 hA), if_neg (fun h => h.2 (by omega))]
    · push_neg at hA
      have hjeq : j / img.width * img.width + j % img.width = j := by
        rw [Nat.mul_comm]; exact Nat.div_add_mod j img.width
      have hr1 : 1 ≤ j / img.width := Nat.one_le_iff_ne_zero.mpr hA.1
      have hc1 : 1 ≤ j % img.width := Nat.one_le_iff_ne_zero.mpr hA.2.2.1
      rw [if_pos ⟨hj, by push_neg; exact hA⟩, if_pos ⟨hj, by omega⟩,
        sobelSums_one img (j / img.width) (j % img.width) hr1 hc1, hjeq]
  · rw [if_neg (fun h => hj h.1), if_neg (fun h => hj h.1)]

/-- **C3.** On the 3x3 test buffer with channel values
`[119,80,122,177,154,212,89,25,152]` replicated across R/G/B, both
`EdgeDetection` and `SobelFilter(1)` set the center pixel's channel to
exactly 174; and in general the fixed hand-unrolled 3x3 path and the
generic kernel-loop path with the 3x3 Sobel pair produce identical
result buffers on every well-formed image with width ≥ 2 and
height ≥ 2. -/
theorem C3_edge_paths_agree :
    (((Image.filter ⟨3, 3, [⟨119, 119, 119⟩, ⟨80, 80, 80⟩, ⟨122, 122, 122⟩,
          ⟨177, 177, 177⟩, ⟨154, 154, 154⟩, ⟨212, 212, 212⟩, ⟨89, 89, 89⟩,
          ⟨25, 25, 25⟩, ⟨152, 152, 152⟩]⟩ FilterType.EdgeDetection).getPixel 4).red = 174 ∧
      ((Image.filter ⟨3, 3, [⟨119, 119, 119⟩, ⟨80, 80, 80⟩, ⟨122, 122, 122⟩,
          ⟨177, 177, 177⟩, ⟨154, 154, 154⟩, ⟨212, 212, 212⟩, ⟨89, 89, 89⟩,
          ⟨25, 25, 25⟩, ⟨152, 152, 152⟩]⟩ (FilterType.SobelFilter 1)).getPixel 4).red = 174) ∧
    (∀ img : Image, img.WellFormed → 2 ≤ img.width → 2 ≤ img.height →
      img.filter FilterType.EdgeDetection = img.filter (FilterType.SobelFilter 1)) :=
  ⟨⟨by decide, by decide⟩, edge_detection_eq_sobel1⟩

/-- Witness for C3's general part at the 3x3 test buffer. -/
theorem C3_witness :
    Image.filter ⟨3, 3, [⟨119, 119, 119⟩, ⟨80, 80, 80⟩, ⟨122, 122, 122⟩,
        ⟨177, 177, 177⟩, ⟨154, 154, 154⟩, ⟨212, 212, 212⟩, ⟨89, 89, 89⟩,
        ⟨25, 25, 25⟩, ⟨152, 152, 152⟩]⟩ FilterType.EdgeDetection =
      Image.filter ⟨3, 3, [⟨119, 119, 119⟩, ⟨80, 80, 80⟩, ⟨122, 122, 122⟩,
        ⟨177, 177, 177⟩, ⟨154, 154, 154⟩, ⟨212, 212, 212⟩, ⟨89, 89, 89⟩,
        ⟨25, 25, 25⟩, ⟨152, 152, 152⟩]⟩ (FilterType.SobelFilter 1) :=
  C3_edge_paths_agree.2 ⟨3, 3, [⟨119, 119, 119⟩, ⟨80, 80, 80⟩, ⟨122, 122, 122⟩,
    ⟨177, 177, 177⟩, ⟨154, 154, 154⟩, ⟨212, 212, 212⟩, ⟨89, 89, 89⟩,
    ⟨25, 25, 25⟩, ⟨152, 152, 152⟩]⟩ (by decide) (by decide) (by decide)

/-!
## Totality: the checked layer returns the plain result
-/

/-- Checked subtraction succeeds when no underflow occurs. -/
theorem csub_eq (a b : ℕ) (h : b ≤ a) : csub a b = some (a - b) := by
  rw [csub, if_pos h]

/-- A checked read in bounds returns the plain read. -/
theorem cget_eq (px : List Pixel) (i : ℕ) (h : i < px.length) :
    cget px i = some (px.getD i ⟨0, 0, 0⟩) := by
  rw [cget, List.get?_eq_getElem?, List.getElem?_eq_getElem h,
    List.getD_eq_getElem px _ h]

/-- A checked write in bounds returns the plain write. -/
theorem cset_eq (px : List Pixel) (i : ℕ) (p : Pixel) (h : i < px.length) :
    cset px i p = some (px.set i p) := by
  rw [cset, if_pos h]

/-- A monadic fold over `Option` equals `some` of the pure fold when
every step succeeds and preserves the invariant `P`. -/
theorem foldlM_eq_foldl {α : Type} (P : α → Prop) (f : α → ℕ → Option α)
    (g : α → ℕ → α) :
    ∀ (l : List ℕ), (∀ a i, P a → i ∈ l → f a i = some (g a i) ∧ P (g a i)) →
      ∀ a, P a → l.foldlM f a = some (l.foldl g a) := by
  intro l
  induction l with
  | nil => intro h a ha; rfl
  | cons x xs ih =>
    intro h a ha
    have hx := h a x ha (by simp)
    rw [List.foldlM_cons, hx.1]
    show xs.foldlM f (g a x) = _
    rw [List.foldl_cons]
    exact ih (fun a i ha hi => h a i ha (List.mem_cons_of_mem _ hi)) (g a x) hx.2

/-- The checked `fn mirror_x` succeeds on well-formed buffers and
returns the plain result. -/
theorem mirror_xChecked_eq (img : Image) (hwf : img.WellFormed) :
    mirror_xChecked img = some (mirror_x img) := by
  obtain ⟨hw, hh, hlen⟩ := hwf
  have key := foldlM_eq_foldl (fun px : List Pixel => px.length = img.width * img.height)
    (fun px i =>
      if i % img.width < img.width / 2 then
        (csub img.width 1).bind (fun w1 => (csub w1 (i % img.width)).bind (fun col2 =>
          (cget px i).bind (fun p => cset px (i / img.width * img.width + col2) p)))
      else pure px)
    (fun px i =>
      if i % img.width < img.width / 2 then
        px.set (i / img.width * img.width + (img.width - 1 - i % img.width))
          (px.getD i ⟨0, 0, 0⟩)
      else px)
    (List.range img.pixels.length)
    (by
      intro px i hP hi
      simp only []
      rw [List.mem_range, hlen] at hi
      have hclt : i % img.width < img.width := Nat.mod_lt _ hw
      have hrlt : i / img.width < img.height := row_lt_of_index_lt hw hi
      by_cases hc : i % img.width < img.width / 2
      · have h1 := csub_eq img.width 1 (by omega)
        have h2 := csub_eq (img.width - 1) (i % img.width) (by omega)
        have h3 := cget_eq px i (by omega)
        have h4 := cset_eq px (i / img.width * img.width + (img.width - 1 - i % img.width))
          (px.getD i ⟨0, 0, 0⟩)
          (by rw [hP]
              exact index_lt_of_row_col hrlt (by generalize i % img.width = c0 at hclt ⊢; omega))
        constructor
        · rw [if_pos hc, if_pos hc, h1]
          show (csub (img.width - 1) (i % img.width)).bind _ = _
          rw [h2]
          show (cget px i).bind _ = _
          rw [h3]
          show cset px _ _ = _
          exact h4
        · rw [if_pos hc, List.length_set]; exact hP
      · exact ⟨by rw [if_neg hc, if_neg hc]; rfl, by rw [if_neg hc]; exact hP⟩)
    img.pixels hlen
  exact (congrArg (fun o : Option (List Pixel) =>
    o.bind (fun px => (pure { img with pixels := px } : Option Image))) key).trans rfl

/-- The checked `fn mirror_y` succeeds on well-formed buffers and
returns the plain result. -/
theorem mirror_yChecked_eq (img : Image) (hwf : img.WellFormed) :
    mirror_yChecked img = some (mirror_y img) := by
  obtain ⟨hw, hh, hlen⟩ := hwf
  have key := foldlM_eq_foldl (fun px : List Pixel => px.length = img.width * img.height)
    (fun px i =>
      if i / img.width < img.height / 2 then
        (csub img.height 1).bind (fun h1 => (csub h1 (i / img.width)).bind (fun row2 =>
          (cget px i).bind (fun p => cset px (row2 * img.width + i % img.width) p)))
      else pure px)
    (fun px i =>
      if i / img.width < img.height / 2 then
        px.set ((img.height - 1 - i / img.width) * img.width + i % img.width)
          (px.getD i ⟨0, 0, 0⟩)
      else px)
    (List.range img.pixels.length)
    (by
      intro px i hP hi
      simp only []
      rw [List.mem_range, hlen] at hi
      have hclt : i % img.width < img.width := Nat.mod_lt _ hw
      have hrlt : i / img.width < img.height := row_lt_of_index_lt hw hi
      by_cases hc : i / img.width < img.height / 2
      · have h1 := csub_eq img.height 1 (by omega)
        have h2 := csub_eq (img.height - 1) (i / img.width)
          (by generalize i / img.width = r0 at hc hrlt ⊢; omega)
        have h3 := cget_eq px i (by omega)
        have h4 := cset_eq px ((img.height - 1 - i / img.width) * img.width + i % img.width)
          (px.getD i ⟨0, 0, 0⟩)
          (by rw [hP]
              exact index_lt_of_row_col (by generalize i / img.width = r0 at hc hrlt ⊢; omega) hclt)
        constructor
        · rw [if_pos hc, if_pos hc, h1]
          show (csub (img.height - 1) (i / img.width)).bind _ = _
          rw [h2]
          show (cget px i).bind _ = _
          rw [h3]
          show cset px _ _ = _
          exact h4
        · rw [if_pos hc, List.length_set]; exact hP
      · exact ⟨by rw [if_neg hc, if_neg hc]; rfl, by rw [if_neg hc]; exact hP⟩)
    img.pixels hlen
  exact (congrArg (fun o : Option (List Pixel) =>
    o.bind (fun px => (pure { img with pixels := px } : Option Image))) key).trans rfl

/-- The checked `fn grayscale` always succeeds. -/
theorem grayscaleChecked_eq (img : Image) :
    grayscaleChecked img = some (grayscale img) := rfl

/-- The checked per-pixel invert succeeds on `u8`-valid pixels. -/
theorem invertChecked_pixel_eq (p : Pixel) (h : p.Valid) :
    p.invertChecked = some p.invert := by
  obtain ⟨h1, h2, h3⟩ := h
  rw [Pixel.invertChecked, csub_eq 255 p.red h1]
  show (csub 255 p.green).bind _ = _
  rw [csub_eq 255 p.green h2]
  show (csub 255 p.blue).bind _ = _
  rw [csub_eq 255 p.blue h3]
  rfl

/-- The checked `fn invert` succeeds on `u8`-valid buffers. -/
theorem invertChecked_eq (img : Image) (hvp : img.ValidPixels) :
    invertChecked img = some (invert img) := by
  have key : ∀ l : List Pixel, (∀ p ∈ l, p.Valid) →
      l.mapM Pixel.invertChecked = some (l.map Pixel.invert) := by
    intro l
    induction l with
    | nil => intro h; rfl
    | cons x xs ih =>
      intro h
      rw [List.mapM_cons, invertChecked_pixel_eq x (h x (by simp))]
      show (xs.mapM Pixel.invertChecked).bind _ = _
      rw [ih (fun p hp => h p (List.mem_cons_of_mem _ hp))]
      rfl
  exact (congrArg (fun o : Option (List Pixel) =>
    o.bind (fun px => (pure { img with pixels := px } : Option Image)))
    (key img.pixels hvp)).trans rfl

/-- The checked neighbour query succeeds at interior indices of a
well-formed buffer and returns the plain neighborhoods. -/
theorem get_neighbour_colours_checked_eq (img : Image) (i : ℕ)
    (hw : 0 < img.width) (hlen : img.pixels.length = img.width * img.height)
    (hr1 : 1 ≤ i / img.width) (hr2 : i / img.width < img.height - 1)
    (hc1 : 1 ≤ i % img.width) (hc2 : i % img.width < img.width - 1) :
    get_neighbour_colours_checked img i = some (img.get_neighbour_colours i) := by
  rw [get_neighbour_colours_checked, csub_eq (img.index_to_row_col i).1 1 hr1]
  show (csub (img.index_to_row_col i).2 1).bind _ = _
  rw [csub_eq (img.index_to_row_col i).2 1 hc1]
  show (if (∀ dr : Fin 3, ∀ dc : Fin 3,
      img.row_col_to_index (i / img.width - 1 + dr) (i % img.width - 1 + dc) <
        img.pixels.length) then
    (pure (img.get_neighbour_colours i) : Option _) else none) = _
  rw [if_pos]
  rfl
  intro dr dc
  have hdr : (dr : ℕ) < 3 := dr.isLt
  have hdc : (dc : ℕ) < 3 := dc.isLt
  rw [Image.row_col_to_index, hlen]
  exact index_lt_of_row_col
    (by generalize i / img.width = r0 at hr1 hr2 ⊢; omega)
    (by generalize i % img.width = c0 at hc1 hc2 ⊢; omega)

/-- The checked `fn convolution` succeeds on well-formed buffers and
returns the plain result. -/
theorem convolutionChecked_eq (img : Image) (m : ConvolutionMatrix)
    (hwf : img.WellFormed) :
    convolutionChecked img m = some (convolution img m) := by
  obtain ⟨hw, hh, hlen⟩ := hwf
  have key := foldlM_eq_foldl (fun px : List Pixel => px.length = img.width * img.height)
    (fun px i =>
      if 0 < i / img.width then
        (csub img.height 1).bind (fun h1 =>
          if i / img.width < h1 then
            if 0 < i % img.width then
              (csub img.width 1).bind (fun w1 =>
                if i % img.width < w1 then
                  (get_neighbour_colours_checked ⟨img.width, img.height, img.pixels⟩ i).bind
                    (fun nbh => cset px i (Pixel.rgb (apply_convolution nbh.1 m)
                      (apply_convolution nbh.2.1 m) (apply_convolution nbh.2.2 m)))
                else pure px)
            else pure px
          else pure px)
      else pure px)
    (fun px i =>
      if 0 < i / img.width ∧ i / img.width < img.height - 1 ∧
          0 < i % img.width ∧ i % img.width < img.width - 1 then
        px.set i (Pixel.rgb
          (apply_convolution (img.neighbourChannel i Pixel.red) m)
          (apply_convolution (img.neighbourChannel i Pixel.green) m)
          (apply_convolution (img.neighbourChannel i Pixel.blue) m))
      else px)
    (List.range img.pixels.length)
    (by
      intro px i hP hi
      simp only []
      rw [List.mem_range, hlen] at hi
      have hclt : i % img.width < img.width := Nat.mod_lt _ hw
      have hrlt : i / img.width < img.height := row_lt_of_index_lt hw hi
      by_cases hr0 : 0 < i / img.width
      · rw [if_pos hr0, csub_eq img.height 1 (by omega)]
        show ((if i / img.width < img.height - 1 then _ else pure px) = _) ∧ _
        by_cases hrh : i / img.width < img.height - 1
        · rw [if_pos hrh]
          by_cases hc0 : 0 < i % img.width
          · rw [if_pos hc0, csub_eq img.width 1 (by omega)]
            show ((if i % img.width < img.width - 1 then _ else pure px) = _) ∧ _
            by_cases hcw : i % img.width < img.width - 1
            · rw [if_pos hcw,
                get_neighbour_colours_checked_eq ⟨img.width, img.height, img.pixels⟩ i hw hlen
                  hr0 hrh hc0 hcw,
                if_pos ⟨hr0, hrh, hc0, hcw⟩]
              show cset px i _ = _ ∧ _
              exact ⟨cset_eq px i _ (by omega),
                by rw [List.length_set]; exact hP⟩
            · rw [if_neg hcw, if_neg (by rintro ⟨-, -, -, h⟩; exact hcw h)]
              exact ⟨rfl, hP⟩
          · rw [if_neg hc0, if_neg (by rintro ⟨-, -, h, -⟩; exact hc0 h)]
            exact ⟨rfl, hP⟩
        · rw [if_neg hrh, if_neg (by rintro ⟨-, h, -, -⟩; exact hrh h)]
          exact ⟨rfl, hP⟩
      · rw [if_neg hr0, if_neg (by rintro ⟨h, -, -, -⟩; exact hr0 h)]
        exact ⟨rfl, hP⟩)
    img.pixels hlen
  exact (congrArg (fun o : Option (List Pixel) =>
    o.bind (fun px => (pure { img with pixels := px } : Option Image))) key).trans rfl

/-- Red channel of any read is in `u8` range on a valid buffer. -/
theorem getPixel_red_le (img : Image) (hvp : img.ValidPixels) (j : ℕ) :
    (img.getPixel j).red ≤ 255 := by
  rw [Image.getPixel]
  by_cases h : j < img.pixels.length
  · rw [List.getD_eq_getElem _ _ h]
    exact (hvp _ (List.getElem_mem h)).1
  · rw [List.getD_eq_getElem?_getD, List.getElem?_eq_none (by omega)]
    decide

/-- Constructor for in-range `i32` values. -/
theorem I32_of (z : ℤ) (h1 : -(2 ^ 31) ≤ z) (h2 : z < 2 ^ 31) : I32 z := ⟨h1, h2⟩

set_option maxHeartbeats 2000000 in
/-- The checked gradient sums of `fn edge_detection` succeed at every
interior index of a well-formed, `u8`-valid buffer. -/
theorem edSumsChecked_eq (img : Image) (i : ℕ)
    (hw : 0 < img.width) (hlen : img.pixels.length = img.width * img.height)
    (hvp : img.ValidPixels)
    (hr1 : 1 ≤ i / img.width) (hr2 : i / img.width < img.height - 1)
    (hc1 : 1 ≤ i % img.width) (hc2 : i % img.width < img.width - 1) :
    edSumsChecked img i = some (edSumX img i, edSumY img i) := by
  have hclt : i % img.width < img.width := Nat.mod_lt _ hw
  have hjeq : i / img.width * img.width + i % img.width = i := by
    rw [Nat.mul_comm]; exact Nat.div_add_mod i img.width
  have hB : ∀ j : ℕ, ((img.getPixel j).red : ℤ) ≤ 255 ∧ 0 ≤ ((img.getPixel j).red : ℤ) := by
    intro j
    constructor
    · exact_mod_cast getPixel_red_le img hvp j
    · positivity
  have hEXv : edSumX img i =
      ((img.getPixel (i - img.width + 1)).red : ℤ)
        - ((img.getPixel (i - img.width - 1)).red : ℤ)
        - 2 * ((img.getPixel (i - 1)).red : ℤ)
        + 2 * ((img.getPixel (i + 1)).red : ℤ)
        - ((img.getPixel (i + img.width - 1)).red : ℤ)
        + ((img.getPixel (i + img.width + 1)).red : ℤ) := rfl
  have hEYv : edSumY img i =
      -1 * ((img.getPixel (i - img.width - 1)).red : ℤ)
        - 2 * ((img.getPixel (i - img.width)).red : ℤ)
        - ((img.getPixel (i - img.width + 1)).red : ℤ)
        + ((img.getPixel (i + img.width - 1)).red : ℤ)
        + 2 * ((img.getPixel (i + img.width)).red : ℤ)
        + ((img.getPixel (i + img.width + 1)).red : ℤ) := rfl
  have B1 := hB (i - img.width + 1)
  have B2 := hB (i - img.width - 1)
  have B3 := hB (i - 1)
  have B4 := hB (i + 1)
  have B5 := hB (i + img.width - 1)
  have B6 := hB (i + img.width + 1)
  have B7 := hB (i - img.width)
  have B8 := hB (i + img.width)
  have hex1 : -2040 ≤ edSumX img i := by rw [hEXv]; omega
  have hex2 : edSumX img i ≤ 2040 := by rw [hEXv]; omega
  have hey1 : -2040 ≤ edSumY img i := by rw [hEYv]; omega
  have hey2 : edSumY img i ≤ 2040 := by rw [hEYv]; omega
  simp only [edSumsChecked]
  rw [if_pos]
  generalize i / img.width = r at hr1 hr2 hjeq
  generalize i % img.width = c at hc1 hc2 hclt hjeq
  have hge : img.width ≤ r * img.width := Nat.le_mul_of_pos_left _ (by omega)
  have hmul : (r + 1) * img.width = r * img.width + img.width := by
    rw [Nat.add_mul, Nat.one_mul]
  have hmax : (r + 1) * img.width + (c + 1) < img.pixels.length := by
    rw [hlen]; exact index_lt_of_row_col (by omega) (by omega)
  refine ⟨by omega, by omega, by omega, by omega, by omega, by omega, by omega, by omega,
    by omega, by omega, by omega, by omega,
    I32_of _ (by omega) (by omega), I32_of _ (by omega) (by omega),
    I32_of _ (by omega) (by omega), I32_of _ (by omega) (by omega),
    I32_of _ (by omega) (by omega), I32_of _ (by omega) (by omega),
    I32_of _ (by omega) (by omega), I32_of _ (by omega) (by omega),
    I32_of _ (by omega) (by omega), I32_of _ (by omega) (by omega),
    I32_of _ (by omega) (by omega), I32_of _ (by omega) (by omega),
    I32_of _ (by nlinarith [mul_self_nonneg (edSumX img i)])
      (by nlinarith [hex1, hex2]),
    I32_of _ (by nlinarith [mul_self_nonneg (edSumY img i)])
      (by nlinarith [hey1, hey2]),
    I32_of _ (by nlinarith [mul_self_nonneg (edSumX img i), mul_self_nonneg (edSumY img i)])
      (by nlinarith [hex1, hex2, hey1, hey2])⟩

/-- The checked `fn edge_detection` succeeds on well-formed `u8`-valid
buffers and returns the plain result. -/
theorem edge_detectionChecked_eq (img : Image) (hwf : img.WellFormed)
    (hvp : img.ValidPixels) :
    edge_detectionChecked img = some (edge_detection img) := by
  obtain ⟨hw, hh, hlen⟩ := hwf
  have key := foldlM_eq_foldl (fun px : List Pixel => px.length = img.width * img.height)
    (fun px i =>
      if i / img.width = 0 then pure px
      else (csub img.height 1).bind (fun h1 =>
        if i / img.width = h1 then pure px
        else if i % img.width = 0 then pure px
        else (csub img.width 1).bind (fun w1 =>
          if i % img.width = w1 then pure px
          else (edSumsChecked ⟨img.width, img.height, img.pixels⟩ i).bind (fun s =>
            (cget px i).bind (fun p => cset px i (p.set_gray (gradMag s.1 s.2)))))))
    (fun px i =>
      if i / img.width = 0 ∨ i / img.width = img.height - 1 ∨
          i % img.width = 0 ∨ i % img.width = img.width - 1 then px
      else px.set i ((px.getD i ⟨0, 0, 0⟩).set_gray
        (gradMag (edSumX img i) (edSumY img i))))
    (List.range img.pixels.length)
    (by
      intro px i hP hi
      simp only []
      rw [List.mem_range, hlen] at hi
      have hclt : i % img.width < img.width := Nat.mod_lt _ hw
      have hrlt : i / img.width < img.height := row_lt_of_index_lt hw hi
      by_cases h0 : i / img.width = 0
      · rw [if_pos h0, if_pos (Or.inl h0)]; exact ⟨rfl, hP⟩
      · rw [if_neg h0, csub_eq img.height 1 (by omega)]
        show ((if i / img.width = img.height - 1 then pure px else _) = _) ∧ _
        by_cases h1 : i / img.width = img.height - 1
        · rw [if_pos h1, if_pos (Or.inr (Or.inl h1))]; exact ⟨rfl, hP⟩
        · rw [if_neg h1]
          by_cases h2 : i % img.width = 0
          · rw [if_pos h2, if_pos (Or.inr (Or.inr (Or.inl h2)))]; exact ⟨rfl, hP⟩
          · rw [if_neg h2, csub_eq img.width 1 (by omega)]
            show ((if i % img.width = img.width - 1 then pure px else _) = _) ∧ _
            by_cases h3 : i % img.width = img.width - 1
            · rw [if_pos h3, if_pos (Or.inr (Or.inr (Or.inr h3)))]; exact ⟨rfl, hP⟩
            · rw [if_neg h3,
                edSumsChecked_eq ⟨img.width, img.height, img.pixels⟩ i hw hlen hvp
                  (Nat.one_le_iff_ne_zero.mpr h0)
                  (Nat.lt_of_le_of_ne (Nat.le_pred_of_lt hrlt) h1)
                  (Nat.one_le_iff_ne_zero.mpr h2)
                  (Nat.lt_of_le_of_ne (Nat.le_pred_of_lt hclt) h3),
                if_neg (by rintro (h | h | h | h); exacts [h0 h, h1 h, h2 h, h3 h])]
              show (cget px i).bind _ = _ ∧ _
              rw [cget_eq px i (by omega)]
              show cset px i _ = _ ∧ _
              exact ⟨cset_eq px i _ (by omega), by rw [List.length_set]; exact hP⟩)
    (img.pixels.map Pixel.grayscale)
    (by show (img.pixels.map Pixel.grayscale).length = img.width * img.height
        rw [List.length_map]; exact hlen)
  exact (congrArg (fun o : Option (List Pixel) =>
    o.bind (fun px => (pure { img with pixels := px } : Option Image))) key).trans rfl

/-- The checked inner kernel loop of `fn edge` succeeds whenever the
pixel sits at least `margin` away from every border of a well-formed
buffer and the kernel pair has the declared square shape. -/
theorem sobelSumsChecked_eq (mx my : List (List ℤ)) (img : Image) (row col margin : ℕ)
    (hmx : mx.length = 2 * margin + 1) (hmy : my.length = 2 * margin + 1)
    (hrx : ∀ q ∈ mx, q.length = 2 * margin + 1)
    (hry : ∀ q ∈ my, q.length = 2 * margin + 1)
    (hw : 0 < img.width) (hlen : img.pixels.length = img.width * img.height)
    (hr1 : margin ≤ row) (hr2 : row + margin ≤ img.height - 1) (hh : 0 < img.height)
    (hc1 : margin ≤ col) (hc2 : col + margin ≤ img.width - 1) :
    sobelSumsChecked mx my img row col margin =
      some (sobelSums mx my img row col margin) := by
  have inner : ∀ (jj : ℕ), jj < 2 * margin + 1 → ∀ s : ℤ × ℤ,
      (List.range (2 * margin + 1)).foldlM (fun s (kk : ℕ) =>
        (ctoNat ((row : ℤ) + ((jj : ℤ) - (margin : ℤ)))).bind (fun row2 =>
        (ctoNat ((col : ℤ) + ((kk : ℤ) - (margin : ℤ)))).bind (fun col2 =>
        (cget img.pixels (img.row_col_to_index row2 col2)).bind (fun p =>
        ((mx.get? jj).bind (fun q => q.get? kk)).bind (fun wx =>
        ((my.get? jj).bind (fun q => q.get? kk)).bind (fun wy =>
        pure (s.1 + wx * ((p.red : ℤ)), s.2 + wy * ((p.red : ℤ))))))))) s =
      some ((List.range (2 * margin + 1)).foldl (fun s (kk : ℕ) =>
        (s.1 + ((mx.getD jj []).getD kk 0) *
            ((img.getPixel (img.row_col_to_index
              (((row : ℤ) + ((jj : ℤ) - (margin : ℤ))).toNat)
              (((col : ℤ) + ((kk : ℤ) - (margin : ℤ))).toNat))).red : ℤ),
         s.2 + ((my.getD jj []).getD kk 0) *
            ((img.getPixel (img.row_col_to_index
              (((row : ℤ) + ((jj : ℤ) - (margin : ℤ))).toNat)
              (((col : ℤ) + ((kk : ℤ) - (margin : ℤ))).toNat))).red : ℤ))) s) := by
    intro jj hjj s
    refine foldlM_eq_foldl (fun _ : ℤ × ℤ => True) _ _ _ ?_ s trivial
    intro a kk _ hkk
    rw [List.mem_range] at hkk
    refine ⟨?_, trivial⟩
    have ht1 : ctoNat ((row : ℤ) + ((jj : ℤ) - (margin : ℤ))) =
        some (((row : ℤ) + ((jj : ℤ) - (margin : ℤ))).toNat) := by
      rw [ctoNat, if_pos (by omega)]
    have ht2 : ctoNat ((col : ℤ) + ((kk : ℤ) - (margin : ℤ))) =
        some (((col : ℤ) + ((kk : ℤ) - (margin : ℤ))).toNat) := by
      rw [ctoNat, if_pos (by omega)]
    have hRb : ((row : ℤ) + ((jj : ℤ) - (margin : ℤ))).toNat < img.height := by omega
    have hCb : ((col : ℤ) + ((kk : ℤ) - (margin : ℤ))).toNat < img.width := by omega
    have hidx : img.row_col_to_index
        (((row : ℤ) + ((jj : ℤ) - (margin : ℤ))).toNat)
        (((col : ℤ) + ((kk : ℤ) - (margin : ℤ))).toNat) < img.pixels.length := by
      rw [Image.row_col_to_index, hlen]
      exact index_lt_of_row_col hRb hCb
    have hjx : jj < mx.length := by omega
    have hjy : jj < my.length := by omega
    have hkx : kk < mx[jj].length := by rw [hrx mx[jj] (List.getElem_mem hjx)]; omega
    have hky : kk < my[jj].length := by rw [hry my[jj] (List.getElem_mem hjy)]; omega
    have hwx : (mx.get? jj).bind (fun q => q.get? kk) = some ((mx.getD jj []).getD kk 0) := by
      rw [List.get?_eq_getElem?, List.getElem?_eq_getElem hjx]
      show mx[jj].get? kk = _
      rw [List.getD_eq_getElem mx [] hjx, List.get?_eq_getElem?,
        List.getElem?_eq_getElem hkx, List.getD_eq_getElem _ 0 hkx]
    have hwy : (my.get? jj).bind (fun q => q.get? kk) = some ((my.getD jj []).getD kk 0) := by
      rw [List.get?_eq_getElem?, List.getElem?_eq_getElem hjy]
      show my[jj].get? kk = _
      rw [List.getD_eq_getElem my [] hjy, List.get?_eq_getElem?,
        List.getElem?_eq_getElem hky, List.getD_eq_getElem _ 0 hky]
    rw [ht1]
    show (ctoNat ((col : ℤ) + ((kk : ℤ) - (margin : ℤ)))).bind _ = _
    rw [ht2]
    show (cget img.pixels _).bind _ = _
    rw [cget_eq img.pixels _ hidx]
    show ((mx.get? jj).bind (fun q => q.get? kk)).bind _ = _
    rw [hwx]
    show ((my.get? jj).bind (fun q => q.get? kk)).bind _ = _
    rw [hwy]
    rfl
  have key := foldlM_eq_foldl (fun _ : ℤ × ℤ => True)
    (fun s (jj : ℕ) => (List.range (2 * margin + 1)).foldlM (fun s (kk : ℕ) =>
        (ctoNat ((row : ℤ) + ((jj : ℤ) - (margin : ℤ)))).bind (fun row2 =>
        (ctoNat ((col : ℤ) + ((kk : ℤ) - (margin : ℤ)))).bind (fun col2 =>
        (cget img.pixels (img.row_col_to_index row2 col2)).bind (fun p =>
        ((mx.get? jj).bind (fun q => q.get? kk)).bind (fun wx =>
        ((my.get? jj).bind (fun q => q.get? kk)).bind (fun wy =>
        pure (s.1 + wx * ((p.red : ℤ)), s.2 + wy * ((p.red : ℤ))))))))) s)
    (fun s (jj : ℕ) => (List.range (2 * margin + 1)).foldl (fun s (kk : ℕ) =>
        (s.1 + ((mx.getD jj []).getD kk 0) *
            ((img.getPixel (img.row_col_to_index
              (((row : ℤ) + ((jj : ℤ) - (margin : ℤ))).toNat)
              (((col : ℤ) + ((kk : ℤ) - (margin : ℤ))).toNat))).red : ℤ),
         s.2 + ((my.getD jj []).getD kk 0) *
            ((img.getPixel (img.row_col_to_index
              (((row : ℤ) + ((jj : ℤ) - (margin : ℤ))).toNat)
              (((col : ℤ) + ((kk : ℤ) - (margin : ℤ))).toNat))).red : ℤ)))
        s)
    (List.range (2 * margin + 1))
    (by
      intro s jj _ hjj
      rw [List.mem_range] at hjj
      exact ⟨inner jj hjj s, trivial⟩)
    ((0 : ℤ), (0 : ℤ)) trivial
  exact key

/-- The checked body of `fn edge` succeeds on well-formed buffers for
any kernel pair of the declared odd square shape. -/
theorem edgeWithChecked_eq (mx my : List (List ℤ)) (img : Image)
    (hmx : mx.length = 2 * (mx.length / 2) + 1)
    (hmy : my.length = 2 * (mx.length / 2) + 1)
    (hrx : ∀ q ∈ mx, q.length = 2 * (mx.length / 2) + 1)
    (hry : ∀ q ∈ my, q.length = 2 * (mx.length / 2) + 1)
    (hwf : img.WellFormed) :
    edgeWithChecked mx my img = some (edgeWith mx my img) := by
  obtain ⟨hw, hh, hlen⟩ := hwf
  have key := foldlM_eq_foldl (fun px : List Pixel => px.length = img.width * img.height)
    (fun px i =>
      if i / img.width < mx.length / 2 then pure px
      else (csub img.height (mx.length / 2 + 1)).bind (fun hb =>
        if i / img.width > hb then pure px
        else if i % img.width < mx.length / 2 then pure px
        else (csub img.width (mx.length / 2 + 1)).bind (fun wb =>
          if i % img.width > wb then pure px
          else (sobelSumsChecked mx my img
              (i / img.width) (i % img.width) (mx.length / 2)).bind (fun s =>
            (cget px i).bind (fun p => cset px i (p.set_gray (gradMag s.1 s.2)))))))
    (fun px i =>
      if i / img.width < mx.length / 2 ∨
          i / img.width > img.height - (mx.length / 2 + 1) ∨
          i % img.width < mx.length / 2 ∨
          i % img.width > img.width - (mx.length / 2 + 1) then px
      else px.set i ((px.getD i ⟨0, 0, 0⟩).set_gray (gradMag
        (sobelSums mx my img
          (i / img.width) (i % img.width) (mx.length / 2)).1
        (sobelSums mx my img
          (i / img.width) (i % img.width) (mx.length / 2)).2)))
    (List.range img.pixels.length)
    (by
      intro px i hP hi
      simp only []
      rw [List.mem_range, hlen] at hi
      have hclt : i % img.width < img.width := Nat.mod_lt _ hw
      have hrlt : i / img.width < img.height := row_lt_of_index_lt hw hi
      by_cases g1 : i / img.width < mx.length / 2
      · rw [if_pos g1, if_pos (Or.inl g1)]; exact ⟨rfl, hP⟩
      · have hsub1 : mx.length / 2 + 1 ≤ img.height := by
          generalize i / img.width = r0 at g1 hrlt; omega
        rw [if_neg g1, csub_eq img.height (mx.length / 2 + 1) hsub1]
        show ((if i / img.width > img.height - (mx.length / 2 + 1) then pure px
          else _) = _) ∧ _
        by_cases g2 : i / img.width > img.height - (mx.length / 2 + 1)
        · rw [if_pos g2, if_pos (Or.inr (Or.inl g2))]; exact ⟨rfl, hP⟩
        · rw [if_neg g2]
          by_cases g3 : i % img.width < mx.length / 2
          · rw [if_pos g3, if_pos (Or.inr (Or.inr (Or.inl g3)))]; exact ⟨rfl, hP⟩
          · have hsub2 : mx.length / 2 + 1 ≤ img.width := by
              generalize i % img.width = c0 at g3 hclt; omega
            rw [if_neg g3, csub_eq img.width (mx.length / 2 + 1) hsub2]
            show ((if i % img.width > img.width - (mx.length / 2 + 1) then pure px
              else _) = _) ∧ _
            by_cases g4 : i % img.width > img.width - (mx.length / 2 + 1)
            · rw [if_pos g4, if_pos (Or.inr (Or.inr (Or.inr g4)))]; exact ⟨rfl, hP⟩
            · rw [if_neg g4,
                sobelSumsChecked_eq mx my img
                  (i / img.width) (i % img.width) (mx.length / 2) hmx hmy hrx hry hw hlen
                  (Nat.le_of_not_lt g1)
                  (by generalize i / img.width = r0 at g1 g2 hrlt; omega)
                  hh
                  (Nat.le_of_not_lt g3)
                  (by generalize i % img.width = c0 at g3 g4 hclt; omega),
                if_neg (by rintro (h | h | h | h); exacts [g1 h, g2 h, g3 h, g4 h])]
              show (cget px i).bind _ = _ ∧ _
              rw [cget_eq px i (by omega)]
              show cset px i _ = _ ∧ _
              exact ⟨cset_eq px i _ (by omega), by rw [List.length_set]; exact hP⟩)
    (img.pixels.map Pixel.grayscale)
    (by show (img.pixels.map Pixel.grayscale).length = img.width * img.height
        rw [List.length_map]; exact hlen)
  exact (congrArg (fun o : Option (List Pixel) =>
    o.bind (fun px => (pure { img with pixels := px } : Option Image))) key).trans rfl

/-- The checked `fn edge` succeeds on well-formed buffers for every
size code, unknown codes included. -/
theorem edgeChecked_eq (img : Image) (num : ℕ) (hwf : img.WellFormed) :
    edgeChecked img num = some (edge img num) := by
  rw [edgeChecked, edge]
  by_cases h1 : num = 1
  · rw [if_pos h1, if_pos h1]
    exact edgeWithChecked_eq SOBEL_1_X SOBEL_1_Y img (by decide) (by decide)
      (by decide) (by decide) hwf
  · rw [if_neg h1, if_neg h1]
    by_cases h2 : num = 2
    · rw [if_pos h2, if_pos h2]
      exact edgeWithChecked_eq SOBEL_2_X SOBEL_2_Y img (by decide) (by decide)
        (by decide) (by decide) hwf
    · rw [if_neg h2, if_neg h2]
      by_cases h3 : num = 3
      · rw [if_pos h3, if_pos h3]
        exact edgeWithChecked_eq SOBEL_3_X SOBEL_3_Y img (by decide) (by decide)
          (by decide) (by decide) hwf
      · rw [if_neg h3, if_neg h3]; rfl

/-- **C5.** Every filter variant is total on well-formed `u8` buffers:
the checked pass — every subtraction, index access, `i32` operation
and `i32 → usize` cast made explicit and fallible — succeeds and
returns exactly the plain result, for every such buffer including
ones smaller than the kernel margin. -/
theorem C5_filters_total (img : Image) (ft : FilterType)
    (hwf : img.WellFormed) (hvp : img.ValidPixels) :
    filterChecked img ft = some (img.filter ft) := by
  cases ft with
  | MirrorX => exact mirror_xChecked_eq img hwf
  | MirrorY => exact mirror_yChecked_eq img hwf
  | Grayscale => exact grayscaleChecked_eq img
  | Invert => exact invertChecked_eq img hvp
  | Convolution m => exact convolutionChecked_eq img m hwf
  | EdgeDetection => exact edge_detectionChecked_eq img hwf hvp
  | SobelFilter num => exact edgeChecked_eq img num hwf

/-- Witness for C5: a 1x1 buffer — smaller than every Sobel margin —
with the 7x7 Sobel selector runs to completion. -/
theorem C5_witness :
    filterChecked ⟨1, 1, [⟨7, 8, 9⟩]⟩ (FilterType.SobelFilter 3) =
      some (Image.filter ⟨1, 1, [⟨7, 8, 9⟩]⟩ (FilterType.SobelFilter 3)) :=
  C5_filters_total ⟨1, 1, [⟨7, 8, 9⟩]⟩ (FilterType.SobelFilter 3)
    (by decide) (by decide)
